import Mathlib

/-!
Shallow embedding of the herbapedia content pipeline
(scrapers v3 and v6 and the content verification / schema-fix scripts),
together with theorems about the matcher cascade, the pagination crawler,
slug derivation, section extraction, the YAML writer round trip, the
verifier completeness computation, the coverage percentage and the repair
pass.  JavaScript strings are modelled as `String` (with `List Char` as the
working representation); JS object literals and `Map`s are modelled as
association lists in insertion order; network fetches, URL parsing and
HTML regex extraction are modelled by taking their results as inputs.
-/

namespace Herbapedia

/-! ## JS string primitives -/

/-- The characters matched by the regex class `\s` (ASCII part, which is all
the pipeline ever produces). -/
def isJsWs (c : Char) : Bool :=
  c = ' ' || c = '\t' || c = '\n' || c = '\r' || c = '\x0b' || c = '\x0c'

/-- One run of `p`-characters is replaced by the single character `r`,
modelling a global `String.replace` with a run regex such as `\s+` or a
hyphen run. -/
def collapseRuns (p : Char → Bool) (r : Char) : List Char → List Char
  | [] => []
  | [c] => if p c then [r] else [c]
  | c :: d :: t =>
    if p c then
      if p d then collapseRuns p r (d :: t)
      else r :: collapseRuns p r (d :: t)
    else c :: collapseRuns p r (d :: t)

/-- JS `String.prototype.trim` (ASCII whitespace). -/
def jsTrimChars (l : List Char) : List Char :=
  ((l.dropWhile isJsWs).reverse.dropWhile isJsWs).reverse

/-- JS `String.prototype.trim` on `String`. -/
def jsTrim (s : String) : String := ⟨jsTrimChars s.toList⟩

/-- JS `String.prototype.toLowerCase` (the pipeline only ever lower-cases
ASCII letters; other characters are later discarded by the normalizers). -/
def jsToLower (s : String) : String := ⟨s.toList.map Char.toLower⟩

/-- Substring test on character lists: `sub` occurs inside `hay`. -/
def strContainsChars (hay sub : List Char) : Bool :=
  sub.isPrefixOf hay ||
    match hay with
    | [] => false
    | _ :: t => strContainsChars t sub

/-- JS `a.includes(b)`. -/
def jsIncludes (s sub : String) : Bool := strContainsChars s.toList sub.toList

/-- Lookup in a JS object / `Map`, modelled as an association list in
insertion order (`m.get(k)` and `m[k]`). -/
def mapGet (m : List (String × α)) (k : String) : Option α :=
  (m.find? (fun p => p.1 = k)).map (fun p => p.2)

/-- JS `map.set(k, v)` / `obj[k] = v`: overwrite in place, append if new. -/
def mapSet (m : List (String × α)) (k : String) (v : α) : List (String × α) :=
  if m.any (fun p => p.1 = k) then
    m.map (fun p => if p.1 = k then (k, v) else p)
  else m ++ [(k, v)]

/-! ## Scientific-name normalization (scraper v6, `normalizeScientificName`) -/

/-- `name.toLowerCase().replace(/[^a-z\s]/g, '').replace(/\s+/g, ' ').trim()` -/
def normalizeSciChars (l : List Char) : List Char :=
  jsTrimChars (collapseRuns isJsWs ' '
    ((l.map Char.toLower).filter (fun c => c.isLower || isJsWs c)))

/-- Embeds `normalizeScientificName` from the v6 scraper. -/
def normalizeScientificName (s : String) : String := ⟨normalizeSciChars s.toList⟩

/-! ## Slug derivation (v6 `extractSlugFromImageUrl`, v3 `safeFilename`) -/

/-- `filename.replace(/\.[^.]+$/, '')`: strip a final extension. -/
def stripExt (l : List Char) : List Char :=
  let r := l.reverse
  let ext := r.takeWhile (fun c => c ≠ '.')
  if ext ≠ [] ∧ ext.length < r.length then (r.drop (ext.length + 1)).reverse else l

/-- Strip a trailing hyphen-digits suffix, the `replace` with the anchored
regex hyphen `\d+` dollar in the slug derivation. -/
def stripTrailingDigits (l : List Char) : List Char :=
  let r := l.reverse
  let ds := r.takeWhile Char.isDigit
  if ds ≠ [] ∧ (r.drop ds.length).head? = some '-' then
    (r.drop (ds.length + 1)).reverse
  else l

/-- `.replace(/[^a-z0-9-]/g, '-')` applied character-wise. -/
def slugReplChar (c : Char) : Char :=
  if c.isLower || c.isDigit || c = '-' then c else '-'

/-- Remove one leading hyphen. -/
def trimLeadHyphen : List Char → List Char
  | [] => []
  | c :: t => if c = '-' then t else c :: t

/-- Remove one leading and one trailing hyphen, as the global `replace`
with the anchored alternation regex (caret hyphen, or hyphen dollar) does. -/
def trimHyphens (l : List Char) : List Char :=
  (trimLeadHyphen (trimLeadHyphen l).reverse).reverse

/-- The normalization chain of the v6 slug derivation: lower-case, replace
every character outside `[a-z0-9-]` by a hyphen, collapse hyphen runs,
trim one hyphen at each end. -/
def slugNormalizeChars (l : List Char) : List Char :=
  trimHyphens (collapseRuns (fun c => c = '-') '-' ((l.map Char.toLower).map slugReplChar))

/-- The normalization stage of slug derivation, on `String`. -/
def slugNormalize (s : String) : String := ⟨slugNormalizeChars s.toList⟩

/-- Embeds `extractSlugFromImageUrl` from the v6 scraper.  `new URL(imageUrl)`
and `path.basename` are Node builtins (environment): the function takes the
basename of the image URL path already extracted; a missing image or an
unparsable URL is represented by `Option.none` at each call site. -/
def extractSlugFromImageUrl (filename : String) : String :=
  ⟨slugNormalizeChars (stripTrailingDigits (stripExt filename.toList))⟩

/-! ## The cross-language matcher (scraper v6, `scrapeChinese`) -/

/-- The part of a parsed English page kept in `slugToData` that the matcher
reads (`enData.title`, `enData.scientificName`). -/
structure EnData where
  title : String
  scientificName : String
deriving DecidableEq

/-- A candidate non-baseline record as seen by the matcher: `data.title`,
`data.scientificName`, and the basename of `data.imageUrl` (`none` models a
missing image URL or one `new URL` rejects). -/
structure CnData where
  title : String
  scientificName : String
  imageBasename : Option String
deriving DecidableEq

/-- Strategy 4 of the cascade: linear scan over `slugToData`; per entry,
first the title-containment test, then the slug-in-title test. -/
def titleMatch (cnTitleLower : String) : List (String × EnData) → Option (String × String)
  | [] => none
  | (slug, en) :: rest =>
    let enTitleLower := jsToLower en.title
    if jsIncludes cnTitleLower enTitleLower || jsIncludes enTitleLower cnTitleLower then
      some (slug, "title match")
    else if jsIncludes cnTitleLower ⟨slug.toList.map (fun c => if c = '-' then ' ' else c)⟩ then
      some (slug, "slug in title")
    else titleMatch cnTitleLower rest

/-- Strategy 2 of the cascade: the predicate tested against each
`slugToData` entry (partial scientific-name containment). -/
def partialSciPred (cand : CnData) (en : EnData) : Bool :=
  cand.scientificName ≠ "" && en.scientificName ≠ "" &&
    (let cnNorm := normalizeScientificName cand.scientificName
     let enNorm := normalizeScientificName en.scientificName
     cnNorm ≠ "" && enNorm ≠ "" && (jsIncludes cnNorm enNorm || jsIncludes enNorm cnNorm))

/-- Strategy 3 of the cascade: derive a slug from the candidate's own
image filename and accept it when it is a known baseline slug. -/
def imageMatch (slugToData : List (String × EnData)) : Option String → Option String
  | some f =>
    if extractSlugFromImageUrl f ≠ "" ∧
        slugToData.any (fun p => p.1 = extractSlugFromImageUrl f) then
      some (extractSlugFromImageUrl f)
    else none
  | none => none

/-- Embeds the matcher cascade of `scrapeChinese` (v6): exact scientific
name, partial scientific name, image-filename slug, then title containment;
returns the matched slug and the `matchMethod` string. -/
def matchCandidate (cand : CnData) (slugToData : List (String × EnData))
    (sciNameToSlug : List (String × String)) : Option (String × String) :=
  match (if cand.scientificName ≠ "" then
          mapGet sciNameToSlug (normalizeScientificName cand.scientificName)
         else none) with
  | some s => some (s, "scientific name")
  | none =>
    match slugToData.find? (fun p => partialSciPred cand p.2) with
    | some p => some (p.1, "partial scientific name")
    | none =>
      match imageMatch slugToData cand.imageBasename with
      | some s => some (s, "image filename")
      | none => titleMatch (jsToLower cand.title) slugToData

theorem normalizeScientificName_empty : normalizeScientificName "" = "" := rfl

/-- C1: a candidate whose normalized scientific name hits the baseline
index exactly is matched to that baseline entity, whatever its title and
whatever other baseline titles exist: strategy 1 precedes strategies 2-4
and the first success wins. -/
theorem c1_exact_sci_name_wins (cand : CnData) (slugToData : List (String × EnData))
    (sciNameToSlug : List (String × String)) (a : String)
    (hkey : normalizeScientificName cand.scientificName ≠ "")
    (hhit : mapGet sciNameToSlug (normalizeScientificName cand.scientificName) = some a) :
    matchCandidate cand slugToData sciNameToSlug = some (a, "scientific name") := by
  have hsci : cand.scientificName ≠ "" := by
    intro h
    rw [h, normalizeScientificName_empty] at hkey
    exact hkey rfl
  unfold matchCandidate
  rw [if_pos hsci, hhit]

/-- Witness for C1: the candidate record for calcium, whose lower-cased
title contains the baseline title of the distractor entity, is still
matched by scientific name to the entity its scientific name indexes. -/
theorem c1_witness :
    normalizeScientificName "Calcium Carbonate" ≠ "" ∧
    mapGet [("calcium carbonate", "entity-a")] (normalizeScientificName "Calcium Carbonate")
      = some "entity-a" ∧
    matchCandidate ⟨"Calcium (B)", "Calcium Carbonate", none⟩
      [("entity-b", ⟨"Calcium", "Other name"⟩), ("entity-a", ⟨"Calcium Carbonate", "Calcium Carbonate"⟩)]
      [("calcium carbonate", "entity-a")] = some ("entity-a", "scientific name") := by
  refine ⟨by decide, by decide, ?_⟩
  exact c1_exact_sci_name_wins
    ⟨"Calcium (B)", "Calcium Carbonate", none⟩
    [("entity-b", ⟨"Calcium", "Other name"⟩), ("entity-a", ⟨"Calcium Carbonate", "Calcium Carbonate"⟩)]
    [("calcium carbonate", "entity-a")] "entity-a" (by decide) (by decide)

/-! ## The scraping passes (v6 `scrapeEnglish` / `scrapeChinese`) -/

/-- Global replacement of a fixed non-empty literal pattern (fuelled so
that it reduces; fuel is the input length, which always suffices). -/
def replaceSubFuel (pat rep : List Char) : Nat → List Char → List Char
  | _, [] => []
  | 0, l => l
  | fuel + 1, c :: cs =>
    if pat ≠ [] ∧ pat.isPrefixOf (c :: cs) then
      rep ++ replaceSubFuel pat rep fuel ((c :: cs).drop pat.length)
    else c :: replaceSubFuel pat rep fuel cs

/-- Global replacement of a fixed non-empty literal pattern, modelling a
global `String.replace` with a literal regex (the HTML entity decodes). -/
def replaceSub (pat rep : List Char) (l : List Char) : List Char :=
  replaceSubFuel pat rep l.length l

/-- Embeds `safeFilename` from the v3 scraper: lower-case, decode the
apostrophe and ampersand entities, replace characters outside `[a-z0-9-]`
by hyphens, collapse hyphen runs, trim one hyphen at each end. -/
def safeFilename (s : String) : String :=
  if s = "" then ""
  else
    ⟨trimHyphens (collapseRuns (fun c => c = '-') '-'
      ((replaceSub "&amp;".toList "&".toList
        (replaceSub "&#039;".toList "'".toList (s.toList.map Char.toLower))).map slugReplChar))⟩

/-- Embeds `extractSlugFromImageUrl` from the v3 scraper (URL parsing and
basename abstracted exactly as in the v6 version); the v3 version returns
the empty string rather than null on failure. -/
def extractSlugFromImageUrlV3 (filename : String) : String :=
  safeFilename ⟨stripTrailingDigits (stripExt filename.toList)⟩

/-- A parsed English page as consumed by the baseline loop of
`scrapeEnglish` (v6): `data.title`, `data.slug` (derived from the page URL;
the empty string models a missing slug) and `data.scientificName`. -/
structure EnPage where
  title : String
  slug : String
  scientificName : String
deriving DecidableEq

/-- The state the baseline pass builds: the list of YAML files written
(slug, language) and the two matching indexes. -/
structure EnState where
  writes : List (String × String)
  slugToData : List (String × EnData)
  sciNameToSlug : List (String × String)
deriving DecidableEq

/-- One iteration of the `scrapeEnglish` loop: skip pages without title or
slug, write `en.yaml`, register the record in `slugToData`, and index the
normalized scientific name when it is non-empty. -/
def processEnPage (st : EnState) (p : EnPage) : EnState :=
  if p.title = "" ∨ p.slug = "" then st
  else
    let st1 : EnState :=
      { writes := st.writes ++ [(p.slug, "en")]
        slugToData := mapSet st.slugToData p.slug ⟨p.title, p.scientificName⟩
        sciNameToSlug := st.sciNameToSlug }
    if p.scientificName ≠ "" ∧ normalizeScientificName p.scientificName ≠ "" then
      { st1 with
          sciNameToSlug :=
            mapSet st1.sciNameToSlug (normalizeScientificName p.scientificName) p.slug }
    else st1

/-- Embeds `scrapeEnglish` (v6), with the parsed pages of the crawl given
as input (network and HTML extraction are environment). -/
def scrapeEnglish (pages : List EnPage) : EnState :=
  pages.foldl processEnPage ⟨[], [], []⟩

/-- The YAML writes performed by one `scrapeChinese` pass (v6): a page
without a title is skipped, an unmatched record is not persisted, a
matched record is written as `(matchedSlug, language)`. -/
def scrapeChineseWrites (language : String) (slugToData : List (String × EnData))
    (sciNameToSlug : List (String × String)) (cands : List CnData) : List (String × String) :=
  cands.filterMap (fun cand =>
    if cand.title = "" then none
    else (matchCandidate cand slugToData sciNameToSlug).map (fun p => (p.1, language)))

/-- A parsed page as consumed by the per-herb loop of `scrapeLanguage`
(v3): the title and the image basename its slug is derived from. -/
structure V3Herb where
  title : String
  imageBasename : Option String
deriving DecidableEq

/-- The slug the v3 scraper derives for a page (empty when there is no
image). -/
def v3Slug (h : V3Herb) : String :=
  match h.imageBasename with
  | some f => extractSlugFromImageUrlV3 f
  | none => ""

/-- The YAML writes of one `scrapeLanguage` pass (v3): each parsed page
with a title and a derivable slug is written under its own image-derived
slug — `ensureDir` creates the entity directory if it does not exist, and
no baseline lookup is performed. -/
def v3ScrapeLanguageWrites (langCode : String) (herbs : List V3Herb) : List (String × String) :=
  herbs.filterMap (fun h =>
    if h.title = "" then none
    else if v3Slug h = "" then none
    else some (v3Slug h, langCode))

/-! ### Matcher results point into the baseline index -/

lemma mapGet_mem {α : Type} {m : List (String × α)} {k : String} {v : α}
    (h : mapGet m k = some v) : (k, v) ∈ m := by
  unfold mapGet at h
  rcases Option.map_eq_some'.mp h with ⟨p, hfind, hv⟩
  have hmem := List.mem_of_find?_eq_some hfind
  have hk := List.find?_some hfind
  have : p.1 = k := by simpa using hk
  rcases p with ⟨k', v'⟩
  simp only at this hv
  subst this hv
  exact hmem

lemma mapSet_mem {α : Type} {m : List (String × α)} {k : String} {v : α} {x : String × α}
    (hx : x ∈ mapSet m k v) : x ∈ m ∨ x = (k, v) := by
  unfold mapSet at hx
  split at hx
  · rcases List.mem_map.mp hx with ⟨p, hp, hpx⟩
    by_cases hk : p.1 = k
    · right
      rw [if_pos hk] at hpx
      exact hpx.symm
    · left
      rw [if_neg hk] at hpx
      exact hpx ▸ hp
  · rcases List.mem_append.mp hx with h | h
    · exact Or.inl h
    · right
      simpa using h

lemma titleMatch_mem {t : String} {l : List (String × EnData)} {s m : String}
    (h : titleMatch t l = some (s, m)) : ∃ d, (s, d) ∈ l := by
  induction l with
  | nil => simp [titleMatch] at h
  | cons p rest ih =>
    rcases p with ⟨slug, en⟩
    rw [titleMatch] at h
    split_ifs at h with h1 h2
    · have hs : slug = s := congrArg Prod.fst (Option.some.inj h)
      exact ⟨en, hs ▸ List.mem_cons_self _ _⟩
    · have hs : slug = s := congrArg Prod.fst (Option.some.inj h)
      exact ⟨en, hs ▸ List.mem_cons_self _ _⟩
    · rcases ih h with ⟨d, hd⟩
      exact ⟨d, List.mem_cons_of_mem _ hd⟩

lemma imageMatch_mem {std : List (String × EnData)} {ib : Option String} {s : String}
    (h : imageMatch std ib = some s) : ∃ d, (s, d) ∈ std := by
  rcases ib with _ | f
  · exact absurd h (by simp [imageMatch])
  · simp only [imageMatch] at h
    split_ifs at h with hcond
    · rcases List.any_eq_true.mp hcond.2 with ⟨p, hp, hps⟩
      have hps' : p.1 = extractSlugFromImageUrl f := by simpa using hps
      have hmatch : extractSlugFromImageUrl f = s := Option.some.inj h
      refine ⟨p.2, ?_⟩
      have hpeq : p = (s, p.2) := by
        rcases p with ⟨p1, p2⟩
        simp only at hps' ⊢
        rw [hps', hmatch]
      exact hpeq ▸ hp

lemma matchCandidate_mem {cand : CnData} {std : List (String × EnData)}
    {sci : List (String × String)} {s m : String}
    (h : matchCandidate cand std sci = some (s, m)) :
    (∃ d, (s, d) ∈ std) ∨ (∃ k, (k, s) ∈ sci) := by
  unfold matchCandidate at h
  split at h
  case _ s1 heq =>
    have hs : s1 = s := congrArg Prod.fst (Option.some.inj h)
    subst hs
    right
    by_cases hsci : cand.scientificName ≠ ""
    · rw [if_pos hsci] at heq
      exact ⟨_, mapGet_mem heq⟩
    · rw [if_neg hsci] at heq
      exact absurd heq (by simp)
  case _ =>
    split at h
    case _ p heq =>
      have hs : p.1 = s := congrArg Prod.fst (Option.some.inj h)
      left
      exact ⟨p.2, hs ▸ List.mem_of_find?_eq_some heq⟩
    case _ =>
      split at h
      case _ s3 heq =>
        have hs : s3 = s := congrArg Prod.fst (Option.some.inj h)
        subst hs
        left
        exact imageMatch_mem heq
      case _ =>
        left
        exact titleMatch_mem h

/-- The invariant the baseline pass maintains: every slug in either index
has had its `en.yaml` written. -/
def enStateSound (st : EnState) : Prop :=
  (∀ k d, (k, d) ∈ st.slugToData → (k, "en") ∈ st.writes) ∧
  (∀ k s, (k, s) ∈ st.sciNameToSlug → (s, "en") ∈ st.writes)

lemma processEnPage_sound {st : EnState} (p : EnPage) (h : enStateSound st) :
    enStateSound (processEnPage st p) := by
  unfold processEnPage
  split
  · exact h
  · split
    · constructor
      · intro k d hkd
        rcases mapSet_mem hkd with hold | hnew
        · exact List.mem_append_left _ (h.1 k d hold)
        · have : k = p.slug := congrArg Prod.fst hnew
          subst this
          exact List.mem_append_right _ (by simp)
      · intro k s hks
        rcases mapSet_mem hks with hold | hnew
        · exact List.mem_append_left _ (h.2 k s hold)
        · have : s = p.slug := congrArg Prod.snd hnew
          subst this
          exact List.mem_append_right _ (by simp)
    · constructor
      · intro k d hkd
        rcases mapSet_mem hkd with hold | hnew
        · exact List.mem_append_left _ (h.1 k d hold)
        · have : k = p.slug := congrArg Prod.fst hnew
          subst this
          exact List.mem_append_right _ (by simp)
      · intro k s hks
        exact List.mem_append_left _ (h.2 k s hks)

lemma foldl_processEnPage_sound (pages : List EnPage) :
    ∀ st : EnState, enStateSound st → enStateSound (pages.foldl processEnPage st) := by
  induction pages with
  | nil => intro st h; exact h
  | cons p rest ih =>
    intro st h
    exact ih (processEnPage st p) (processEnPage_sound p h)

lemma scrapeEnglish_sound (pages : List EnPage) : enStateSound (scrapeEnglish pages) :=
  foldl_processEnPage_sound pages ⟨[], [], []⟩ ⟨by simp, by simp⟩

/-- C2 (amended): in the v6 pipeline every non-baseline YAML write lands
on a slug whose baseline `en.yaml` was written by the English pass — the
matcher can only return slugs present in `slugToData` or values of
`sciNameToSlug`, and both index only slugs already persisted. -/
theorem c2_v6_write_has_baseline (pages : List EnPage) (cands : List CnData)
    (language s : String)
    (h : (s, language) ∈ scrapeChineseWrites language (scrapeEnglish pages).slugToData
          (scrapeEnglish pages).sciNameToSlug cands) :
    (s, "en") ∈ (scrapeEnglish pages).writes := by
  rcases List.mem_filterMap.mp h with ⟨cand, _, hcand⟩
  split_ifs at hcand
  rcases Option.map_eq_some'.mp hcand with ⟨⟨s', m'⟩, hmatch, hpair⟩
  have hs : s' = s := congrArg Prod.fst hpair
  subst hs
  rcases matchCandidate_mem hmatch with ⟨d, hd⟩ | ⟨k, hk⟩
  · exact (scrapeEnglish_sound pages).1 s' d hd
  · exact (scrapeEnglish_sound pages).2 k s' hk

/-- Witness for C2: a one-page English pass followed by a one-page
Chinese pass whose record matches by scientific name. -/
theorem c2_v6_witness :
    (("ginseng", "zh-HK") ∈
      scrapeChineseWrites "zh-HK"
        (scrapeEnglish [⟨"Ginseng", "ginseng", "Panax ginseng"⟩]).slugToData
        (scrapeEnglish [⟨"Ginseng", "ginseng", "Panax ginseng"⟩]).sciNameToSlug
        [⟨"人參", "Panax ginseng", none⟩]) ∧
    ("ginseng", "en") ∈ (scrapeEnglish [⟨"Ginseng", "ginseng", "Panax ginseng"⟩]).writes := by
  refine ⟨by decide, ?_⟩
  exact c2_v6_write_has_baseline [⟨"Ginseng", "ginseng", "Panax ginseng"⟩]
    [⟨"人參", "Panax ginseng", none⟩] "zh-HK" "ginseng" (by decide)

/-- Counterexample for C2 as stated: the v3 scraper, run as
`--lang zh-HK` on an empty content store, persists a zh-HK record under
the slug derived from the page's own image filename; the run writes no
`en` record at all, so a LocalizedRecord exists with no baseline record. -/
theorem c2_counterexample :
    v3ScrapeLanguageWrites "zh-HK" [⟨"鈣", some "jin.jpg"⟩] = [("jin", "zh-HK")] ∧
    ∀ p ∈ v3ScrapeLanguageWrites "zh-HK" [⟨"鈣", some "jin.jpg"⟩], p.2 ≠ "en" := by
  decide

/-! ## Pagination crawler (`getCategoryUrls`, v6) -/

/-- The link-collection loop over one listing page's href captures: keep
urls containing "/shop/", dedupe against the accumulator by the raw
string, absolutize urls that do not start with "http".  The regex scan of
the raw html is environment; its successive captures are the input. -/
def collectUrls (base : String) (links : List String) : List String :=
  links.foldl
    (fun acc u =>
      if jsIncludes u "/shop/" && !acc.contains u then
        acc ++ [if "http".toList.isPrefixOf u.toList then u else base ++ u]
      else acc)
    []

/-- JS spread-of-Set dedup: keeps the first occurrence of each element,
in order. -/
def dedupKeepFirst (l : List String) : List String :=
  l.foldl (fun acc u => if acc.contains u then acc else acc ++ [u]) []

/-- The page 2..20 loop of `getCategoryUrls`.  `pages n` is the outcome of
`fetchPage` on listing page `n` (`none` = fetch failure) presented as its
href captures.  The loop is fuelled; fuel 19 is exact, since the page
index starts at 2 and the guard caps it at 20.  Returns the final url
list and the trace of fetched pages as pairs (page number, accumulated
unique url count at fetch time). -/
def crawlLoop (pages : Nat → Option (List String)) (base : String) (total : Nat) :
    Nat → List String → Nat → List String × List (Nat × Nat)
  | 0, urls, _ => (urls, [])
  | fuel + 1, urls, pageNum =>
    if urls.length < total ∧ pageNum ≤ 20 then
      match pages pageNum with
      | none => (urls, [(pageNum, urls.length)])
      | some links =>
        if collectUrls base links = [] then (urls, [(pageNum, urls.length)])
        else
          ((crawlLoop pages base total fuel
              (dedupKeepFirst (urls ++ collectUrls base links)) (pageNum + 1)).1,
            (pageNum, urls.length) ::
              (crawlLoop pages base total fuel
                (dedupKeepFirst (urls ++ collectUrls base links)) (pageNum + 1)).2)
    else (urls, [])

/-- Embeds `getCategoryUrls` (v6) given the outcome of the first page
fetch (`none` models fetch failure, which returns an empty url list) and
the total parsed from the localized "showing N results" phrase (`none` =
no phrasing matched; fall back to the first page's url count). -/
def getCategoryUrls (pages : Nat → Option (List String)) (base : String)
    (firstPage : Option (List String)) (countDetected : Option Nat) :
    List String × List (Nat × Nat) :=
  match firstPage with
  | none => ([], [(1, 0)])
  | some links =>
    ((crawlLoop pages base (countDetected.getD (collectUrls base links).length) 19
        (collectUrls base links) 2).1,
      (1, 0) ::
        (crawlLoop pages base (countDetected.getD (collectUrls base links).length) 19
          (collectUrls base links) 2).2)

lemma crawlLoop_trace_bounds (pages : Nat → Option (List String)) (base : String)
    (total : Nat) :
    ∀ (fuel : Nat) (urls : List String) (pageNum : Nat),
      ∀ e ∈ (crawlLoop pages base total fuel urls pageNum).2,
        pageNum ≤ e.1 ∧ e.1 ≤ 20 ∧ e.2 < total := by
  intro fuel
  induction fuel with
  | zero =>
    intro urls pageNum e he
    simp [crawlLoop] at he
  | succ fuel ih =>
    intro urls pageNum e he
    rw [crawlLoop] at he
    split at he
    case isTrue hcond =>
      split at he
      case _ heq =>
        simp only [List.mem_singleton] at he
        subst he
        exact ⟨Nat.le_refl _, hcond.2, hcond.1⟩
      case _ links heq =>
        split at he
        case isTrue =>
          simp only [List.mem_singleton] at he
          subst he
          exact ⟨Nat.le_refl _, hcond.2, hcond.1⟩
        case isFalse =>
          simp only [List.mem_cons] at he
          rcases he with he | he
          · subst he
            exact ⟨Nat.le_refl _, hcond.2, hcond.1⟩
          · rcases ih _ _ e he with ⟨h1, h2, h3⟩
            exact ⟨Nat.le_of_succ_le h1, h2, h3⟩
    case isFalse =>
      simp at he

lemma crawlLoop_stops_on_empty (pages : Nat → Option (List String)) (base : String)
    (total : Nat) (p : Nat) (lp : List String)
    (hp : pages p = some lp) (hlp : collectUrls base lp = []) :
    ∀ (fuel : Nat) (urls : List String) (pageNum : Nat), pageNum ≤ p →
      ∀ e ∈ (crawlLoop pages base total fuel urls pageNum).2, e.1 ≤ p := by
  intro fuel
  induction fuel with
  | zero =>
    intro urls pageNum _ e he
    simp [crawlLoop] at he
  | succ fuel ih =>
    intro urls pageNum hle e he
    rw [crawlLoop] at he
    split at he
    case isTrue =>
      split at he
      case _ heq =>
        simp only [List.mem_singleton] at he
        subst he
        exact hle
      case _ links heq =>
        split at he
        case isTrue =>
          simp only [List.mem_singleton] at he
          subst he
          exact hle
        case isFalse hne =>
          simp only [List.mem_cons] at he
          rcases he with he | he
          · subst he
            exact hle
          · rcases Nat.lt_or_ge pageNum p with hlt | hge
            · exact ih _ _ hlt e he
            · have hpn : pageNum = p := Nat.le_antisymm hle hge
              subst hpn
              rw [hp] at heq
              have hl : lp = links := Option.some.inj heq
              exact absurd (hl ▸ hlp) hne
    case isFalse =>
      simp at he

/-- First listing page of the 25-item scenario: 9 item links. -/
def shopUrls1 : List String :=
  ["/shop/1", "/shop/2", "/shop/3", "/shop/4", "/shop/5", "/shop/6", "/shop/7",
   "/shop/8", "/shop/9"]

/-- Second listing page of the 25-item scenario: 9 more item links. -/
def shopUrls2 : List String :=
  ["/shop/10", "/shop/11", "/shop/12", "/shop/13", "/shop/14", "/shop/15",
   "/shop/16", "/shop/17", "/shop/18"]

/-- Third listing page of the 25-item scenario: the last 7 item links. -/
def shopUrls3 : List String :=
  ["/shop/19", "/shop/20", "/shop/21", "/shop/22", "/shop/23", "/shop/24",
   "/shop/25"]

/-- Page fetches for the 25-item, 9-per-page scenario. -/
def c3pages : Nat → Option (List String) := fun n =>
  if n = 2 then some shopUrls2 else if n = 3 then some shopUrls3 else some []

/-- Page fetches where every later page repeats the first page's links:
each page yields urls, but zero new ones. -/
def c3pagesRepeat : Nat → Option (List String) := fun _ => some shopUrls1

/-- C3 (amended): listing pages beyond the first are fetched only while
the accumulated unique url count is below the detected total and the page
index is at most 20; the crawl stops as soon as a page yields zero
extracted item urls (a page yielding only already-seen urls does not stop
it — see the counterexample); and with a detected total of 25 and 9 items
per page exactly 3 listing pages are fetched. -/
theorem c3_crawler_amended :
    (∀ (pages : Nat → Option (List String)) (base : String) (total fuel : Nat)
        (urls : List String) (pageNum : Nat),
       ∀ e ∈ (crawlLoop pages base total fuel urls pageNum).2,
         pageNum ≤ e.1 ∧ e.1 ≤ 20 ∧ e.2 < total) ∧
    (∀ (pages : Nat → Option (List String)) (base : String) (total : Nat)
        (p : Nat) (lp : List String), pages p = some lp → collectUrls base lp = [] →
       ∀ (fuel : Nat) (urls : List String) (pageNum : Nat), pageNum ≤ p →
         ∀ e ∈ (crawlLoop pages base total fuel urls pageNum).2, e.1 ≤ p) ∧
    (getCategoryUrls c3pages "" (some shopUrls1) (some 25)).2 = [(1, 0), (2, 9), (3, 18)] ∧
    (getCategoryUrls c3pages "" (some shopUrls1) (some 25)).1.length = 25 := by
  refine ⟨?_, ?_, by decide, by decide⟩
  · intro pages base total fuel urls pageNum e he
    exact crawlLoop_trace_bounds pages base total fuel urls pageNum e he
  · intro pages base total p lp hp hlp fuel urls pageNum hle e he
    exact crawlLoop_stops_on_empty pages base total p lp hp hlp fuel urls pageNum hle e he

/-- Witness for C3: in the 25-item scenario page 2 is fetched, and the
amended theorem instantiated there yields the guard facts. -/
theorem c3_witness :
    (2, 9) ∈ (crawlLoop c3pages "" 25 19 (collectUrls "" shopUrls1) 2).2 ∧
    (2 ≤ 20 ∧ 9 < 25) := by
  refine ⟨by decide, ?_⟩
  have h := c3_crawler_amended.1 c3pages "" 25 19 (collectUrls "" shopUrls1) 2 (2, 9)
    (by decide)
  exact ⟨h.2.1, h.2.2⟩

/-- Counterexample for C3 as stated: when page 2 repeats the first page's
urls, it yields zero NEW urls (the unique count stays 9, as the trace
records), yet the crawler does not stop: it fetches page 3 — and every
page up to the cap of 20. -/
theorem c3_counterexample :
    (2, 9) ∈ (getCategoryUrls c3pagesRepeat "" (some shopUrls1) (some 25)).2 ∧
    (3, 9) ∈ (getCategoryUrls c3pagesRepeat "" (some shopUrls1) (some 25)).2 ∧
    (getCategoryUrls c3pagesRepeat "" (some shopUrls1) (some 25)).2.length = 20 := by
  decide

/-! ## Idempotency of the slug normalization (C4) -/

/-- Membership in the slug alphabet `[a-z0-9-]`. -/
def slugChar (c : Char) : Bool := c.isLower || c.isDigit || c = '-'

lemma slugChar_slugReplChar (c : Char) : slugChar (slugReplChar c) = true := by
  unfold slugReplChar
  split
  · assumption
  · decide

lemma toLower_of_slugChar {c : Char} (h : slugChar c = true) : Char.toLower c = c := by
  unfold Char.toLower
  rw [if_neg]
  intro hc
  rcases hc with ⟨h65, h90⟩
  unfold slugChar at h
  simp only [Bool.or_eq_true, decide_eq_true_eq] at h
  rcases h with (hl | hd) | hh
  · unfold Char.isLower at hl
    simp only [Bool.and_eq_true, decide_eq_true_eq, ge_iff_le] at hl
    rcases hl with ⟨h1, _⟩
    rw [UInt32.le_def, BitVec.le_def] at h1
    have h97 : 97 ≤ c.toNat := by simpa using h1
    omega
  · unfold Char.isDigit at hd
    simp only [Bool.and_eq_true, decide_eq_true_eq, ge_iff_le] at hd
    rcases hd with ⟨_, h2⟩
    rw [UInt32.le_def, BitVec.le_def] at h2
    have h57 : c.toNat ≤ 57 := by simpa using h2
    omega
  · subst hh
    exact absurd h65 (by decide)

lemma slugReplChar_of_slugChar {c : Char} (h : slugChar c = true) : slugReplChar c = c := by
  unfold slugChar at h
  unfold slugReplChar
  rw [if_pos h]

lemma slug_maps_id {l : List Char} (h : ∀ c ∈ l, slugChar c = true) :
    (l.map Char.toLower).map slugReplChar = l := by
  induction l with
  | nil => rfl
  | cons c t ih =>
    have hc := h c (List.mem_cons_self _ _)
    simp only [List.map_cons, toLower_of_slugChar hc, slugReplChar_of_slugChar hc,
      List.cons.injEq, true_and]
    exact ih (fun x hx => h x (List.mem_cons_of_mem _ hx))

/-- No two adjacent characters both satisfy `p`. -/
def noRun (p : Char → Bool) (l : List Char) : Prop :=
  List.Chain' (fun a b => ¬(p a = true ∧ p b = true)) l

lemma collapseRuns_head (p : Char → Bool) (r : Char) :
    ∀ (t : List Char) (d : Char),
      (collapseRuns p r (d :: t)).head? = some (if p d then r else d) := by
  intro t
  induction t with
  | nil =>
    intro d
    unfold collapseRuns
    split <;> rfl
  | cons e t ih =>
    intro d
    rw [collapseRuns]
    by_cases hd : p d = true
    · rw [if_pos hd, if_pos hd]
      by_cases he : p e = true
      · rw [if_pos he, ih e, if_pos he]
      · rw [if_neg he]
        rfl
    · rw [if_neg hd, if_neg hd]
      rfl

lemma collapseRuns_noRun (p : Char → Bool) (r : Char) :
    ∀ l : List Char, noRun p (collapseRuns p r l) := by
  intro l
  induction l with
  | nil => exact List.chain'_nil
  | cons c t ih =>
    match t, ih with
    | [], _ =>
      unfold collapseRuns
      split <;> exact List.chain'_singleton _
    | d :: t, ih =>
      rw [collapseRuns]
      by_cases hc : p c = true
      · rw [if_pos hc]
        by_cases hd : p d = true
        · rw [if_pos hd]
          exact ih
        · rw [if_neg hd]
          refine List.chain'_cons'.mpr ⟨?_, ih⟩
          intro y hy
          rw [Option.mem_def, collapseRuns_head p r t d, if_neg hd] at hy
          have hyd : d = y := Option.some.inj hy
          subst hyd
          exact fun hcon => hd hcon.2
      · rw [if_neg hc]
        refine List.chain'_cons'.mpr ⟨?_, ih⟩
        intro y hy
        exact fun hcon => hc hcon.1

lemma collapseRuns_id (p : Char → Bool) (r : Char) (hr : ∀ c, p c = true → c = r) :
    ∀ l : List Char, noRun p l → collapseRuns p r l = l := by
  intro l
  induction l with
  | nil => intro _; rfl
  | cons c t ih =>
    intro hnr
    match t, ih, hnr with
    | [], _, _ =>
      unfold collapseRuns
      split
      case isTrue h => rw [← hr c h]
      case isFalse => rfl
    | d :: t, ih, hnr =>
      have hR := List.chain'_cons.mp hnr
      rw [collapseRuns]
      by_cases hc : p c = true
      · rw [if_pos hc]
        have hd : ¬ p d = true := fun hd => hR.1 ⟨hc, hd⟩
        rw [if_neg hd, ih hR.2, ← hr c hc]
      · rw [if_neg hc, ih hR.2]

lemma collapseRuns_mem (p : Char → Bool) (r : Char) :
    ∀ (l : List Char) (x : Char), x ∈ collapseRuns p r l → x ∈ l ∨ x = r := by
  intro l
  induction l with
  | nil => intro x hx; exact absurd hx (by simp [collapseRuns])
  | cons c t ih =>
    match t, ih with
    | [], _ =>
      intro x hx
      unfold collapseRuns at hx
      split at hx
      · right
        simpa using hx
      · left
        simpa using hx
    | d :: t, ih =>
      intro x hx
      rw [collapseRuns] at hx
      by_cases hc : p c = true
      · rw [if_pos hc] at hx
        by_cases hd : p d = true
        · rw [if_pos hd] at hx
          rcases ih x hx with h | h
          · exact Or.inl (List.mem_cons_of_mem _ h)
          · exact Or.inr h
        · rw [if_neg hd] at hx
          rcases List.mem_cons.mp hx with h | h
          · exact Or.inr h
          · rcases ih x h with h' | h'
            · exact Or.inl (List.mem_cons_of_mem _ h')
            · exact Or.inr h'
      · rw [if_neg hc] at hx
        rcases List.mem_cons.mp hx with h | h
        · exact Or.inl (h ▸ List.mem_cons_self _ _)
        · rcases ih x h with h' | h'
          · exact Or.inl (List.mem_cons_of_mem _ h')
          · exact Or.inr h'

lemma trimLeadHyphen_cases (l : List Char) :
    trimLeadHyphen l = l ∨ trimLeadHyphen l = l.tail := by
  match l with
  | [] => exact Or.inl rfl
  | c :: t =>
    by_cases hc : c = '-'
    · right
      simp only [trimLeadHyphen, if_pos hc]
      rfl
    · left
      simp only [trimLeadHyphen, if_neg hc]

lemma trimLeadHyphen_of_ne {l : List Char} (h : l.head? ≠ some '-') :
    trimLeadHyphen l = l := by
  match l with
  | [] => rfl
  | c :: t =>
    have hc : ¬ c = '-' := fun hcon => h (by rw [hcon]; rfl)
    simp only [trimLeadHyphen, if_neg hc]

lemma trimLeadHyphen_mem {l : List Char} {x : Char} (hx : x ∈ trimLeadHyphen l) : x ∈ l := by
  rcases trimLeadHyphen_cases l with h | h
  · rw [h] at hx
    exact hx
  · rw [h] at hx
    exact List.mem_of_mem_tail hx

lemma trimLeadHyphen_noRun {p : Char → Bool} {l : List Char} (h : noRun p l) :
    noRun p (trimLeadHyphen l) := by
  rcases trimLeadHyphen_cases l with heq | heq <;> rw [heq]
  · exact h
  · exact List.Chain'.tail h

lemma trimLeadHyphen_head {l : List Char} (h : noRun (fun c => decide (c = '-')) l) :
    ∀ y, (trimLeadHyphen l).head? = some y → y ≠ '-' := by
  intro y hy
  match l with
  | [] => exact absurd hy (by simp [trimLeadHyphen])
  | c :: t =>
    by_cases hc : c = '-'
    · have ht : trimLeadHyphen (c :: t) = t := by
        simp only [trimLeadHyphen, if_pos hc]
      rw [ht] at hy
      have hR := (List.chain'_cons'.mp h).1 y (by rw [Option.mem_def, hy])
      simp only [decide_eq_true_eq] at hR
      exact fun hcon => hR ⟨hc, hcon⟩
    · rw [trimLeadHyphen_of_ne (fun hcon => hc (by simpa using hcon))] at hy
      have hcy : c = y := Option.some.inj hy
      subst hcy
      exact hc

lemma noRun_reverse {p : Char → Bool} {l : List Char} (h : noRun p l) : noRun p l.reverse := by
  unfold noRun at h ⊢
  rw [List.chain'_reverse]
  exact h.imp (fun a b hab => fun hcon => hab ⟨hcon.2, hcon.1⟩)

lemma trimHyphens_mem {l : List Char} {x : Char} (hx : x ∈ trimHyphens l) : x ∈ l := by
  unfold trimHyphens at hx
  rw [List.mem_reverse] at hx
  have h1 := trimLeadHyphen_mem hx
  rw [List.mem_reverse] at h1
  exact trimLeadHyphen_mem h1

lemma trimHyphens_id {l : List Char} (h1 : l.head? ≠ some '-')
    (h2 : l.reverse.head? ≠ some '-') : trimHyphens l = l := by
  unfold trimHyphens
  rw [trimLeadHyphen_of_ne h1, trimLeadHyphen_of_ne h2, List.reverse_reverse]

lemma getLast?_tail_cases (l : List Char) :
    l.tail.getLast? = l.getLast? ∨ l.tail.getLast? = none := by
  match l with
  | [] => exact Or.inl rfl
  | [c] => exact Or.inr rfl
  | c :: d :: t => exact Or.inl (List.getLast?_cons_cons ..).symm

lemma trimLeadHyphen_getLast {l : List Char} (h : l.getLast? ≠ some '-') :
    (trimLeadHyphen l).getLast? ≠ some '-' := by
  rcases trimLeadHyphen_cases l with heq | heq
  · rw [heq]
    exact h
  · rw [heq]
    rcases getLast?_tail_cases l with hc | hc
    · rw [hc]
      exact h
    · rw [hc]
      simp

/-- Normalizing a list that is already fully normalized is the identity. -/
lemma slugNormalizeChars_fixed {m : List Char}
    (hchar : ∀ c ∈ m, slugChar c = true)
    (hnr : noRun (fun c => decide (c = '-')) m)
    (hhead : m.head? ≠ some '-') (hlast : m.reverse.head? ≠ some '-') :
    slugNormalizeChars m = m := by
  unfold slugNormalizeChars
  rw [slug_maps_id hchar, collapseRuns_id _ '-' (fun c h => by simpa using h) m hnr,
    trimHyphens_id hhead hlast]

/-- The core of C4: the slug normalization chain is idempotent. -/
lemma slugNormalizeChars_idem (l : List Char) :
    slugNormalizeChars (slugNormalizeChars l) = slugNormalizeChars l := by
  have hm : slugNormalizeChars l =
      trimHyphens (collapseRuns (fun c => decide (c = '-')) '-'
        ((l.map Char.toLower).map slugReplChar)) := rfl
  set m : List Char :=
    collapseRuns (fun c => decide (c = '-')) '-' ((l.map Char.toLower).map slugReplChar)
    with hmdef
  have hmchar : ∀ c ∈ m, slugChar c = true := by
    intro c hc
    rcases collapseRuns_mem _ '-' _ c hc with h | h
    · rcases List.mem_map.mp h with ⟨c', _, hc'⟩
      exact hc' ▸ slugChar_slugReplChar c'
    · subst h
      decide
  have hmnr : noRun (fun c => decide (c = '-')) m := collapseRuns_noRun _ '-' _
  have houtchar : ∀ c ∈ trimHyphens m, slugChar c = true :=
    fun c hc => hmchar c (trimHyphens_mem hc)
  have hAnr : noRun (fun c => decide (c = '-')) (trimLeadHyphen m) :=
    trimLeadHyphen_noRun hmnr
  have hBnr : noRun (fun c => decide (c = '-')) (trimLeadHyphen (trimLeadHyphen m).reverse) :=
    trimLeadHyphen_noRun (noRun_reverse hAnr)
  have houtnr : noRun (fun c => decide (c = '-')) (trimHyphens m) := by
    unfold trimHyphens
    exact noRun_reverse hBnr
  have hAhead : (trimLeadHyphen m).head? ≠ some '-' := by
    intro hcon
    exact trimLeadHyphen_head hmnr '-' hcon rfl
  have hBhead : (trimLeadHyphen (trimLeadHyphen m).reverse).head? ≠ some '-' := by
    intro hcon
    exact trimLeadHyphen_head (noRun_reverse hAnr) '-' hcon rfl
  have hhead : (trimHyphens m).head? ≠ some '-' := by
    unfold trimHyphens
    rw [List.head?_reverse]
    have hrevlast : (trimLeadHyphen m).reverse.getLast? ≠ some '-' := by
      rw [List.getLast?_reverse]
      exact hAhead
    exact trimLeadHyphen_getLast hrevlast
  have hlast : (trimHyphens m).reverse.head? ≠ some '-' := by
    unfold trimHyphens
    rw [List.reverse_reverse]
    exact hBhead
  rw [hm]
  exact slugNormalizeChars_fixed houtchar houtnr hhead hlast

/-- C4: slug derivation is deterministic (it is a pure function of the
image URL), the normalization stage is idempotent on every string, and in
particular every slug the derivation produces passes through the
normalization unchanged. -/
theorem c4_slug_idempotent :
    (∀ u : String, extractSlugFromImageUrl u = extractSlugFromImageUrl u) ∧
    (∀ s : String, slugNormalize (slugNormalize s) = slugNormalize s) ∧
    (∀ u : String, slugNormalize (extractSlugFromImageUrl u) = extractSlugFromImageUrl u) := by
  refine ⟨fun u => rfl, ?_, ?_⟩
  · intro s
    show (⟨slugNormalizeChars (slugNormalizeChars s.toList)⟩ : String) = _
    rw [slugNormalizeChars_idem]
    rfl
  · intro u
    show (⟨slugNormalizeChars (slugNormalizeChars _)⟩ : String) = _
    rw [slugNormalizeChars_idem]
    rfl

/-! ## The content verifier (`verify-content` v3) -/

/-- The five canonical content fields the verifier checks. -/
def CONTENT_FIELDS : List String :=
  ["history", "introduction", "traditional_usage", "modern_usage", "functions"]

/-- The three required languages, baseline first. -/
def REQUIRED_LANGUAGES : List String := ["en", "zh-HK", "zh-CN"]

/-- One language file of an entity directory: missing, present but failing
to parse, or parsed into a YAML mapping.  Values are modelled as strings;
the verifier treats a non-string value exactly like an empty one, so the
distinction is immaterial to the field-presence test. -/
inductive LangFile
  | absent
  | unparsable
  | parsed (data : List (String × String))
deriving DecidableEq

/-- An entity directory: one file slot per required language. -/
structure HerbDir where
  en : LangFile
  zhHK : LangFile
  zhCN : LangFile
deriving DecidableEq

/-- File lookup by language code. -/
def langFile (d : HerbDir) (lang : String) : LangFile :=
  if lang = "en" then d.en
  else if lang = "zh-HK" then d.zhHK
  else if lang = "zh-CN" then d.zhCN
  else .absent

/-- Embeds `getPresentContentFields` (identical in the verifier and the
fix script): the canonical fields whose value is a non-empty trimmed
string. -/
def getPresentContentFields (data : List (String × String)) : List String :=
  CONTENT_FIELDS.filter (fun f =>
    match mapGet data f with
    | some v => jsTrim v ≠ ""
    | none => false)

/-- One schema-inconsistency record pushed by `validateHerbDirectory`. -/
structure Issue where
  type : String
  language : String
  field : String
deriving DecidableEq

/-- The per-language entry of `issues.languages`: a parse-error flag and
the present-field list. -/
structure LangEntry where
  hasError : Bool
  fields : List String
deriving DecidableEq

/-- The validation record of one entity directory. -/
structure Validation where
  missingLanguages : List String
  languages : List (String × LangEntry)
  schemaInconsistencies : List Issue
  hasIssues : Bool
deriving DecidableEq

/-- The first loop of `validateHerbDirectory`: per required language,
record a missing file, a parse error, or the present-field set (the third
component is `languageData`, which only parsed files enter). -/
def scanLangs (d : HerbDir) :
    List String × List (String × LangEntry) × List (String × List String) :=
  REQUIRED_LANGUAGES.foldl
    (fun acc lang =>
      match langFile d lang with
      | .absent => (acc.1 ++ [lang], acc.2.1, acc.2.2)
      | .unparsable => (acc.1, acc.2.1 ++ [(lang, ⟨true, []⟩)], acc.2.2)
      | .parsed data =>
        (acc.1, acc.2.1 ++ [(lang, ⟨false, getPresentContentFields data⟩)],
          acc.2.2 ++ [(lang, getPresentContentFields data)]))
    ([], [], [])

/-- The consistency loop of `validateHerbDirectory`: with English as
baseline, push one missing_field issue per baseline field absent from a
parsed non-baseline language, then one extra_field issue per field that
language has beyond the baseline. -/
def diffIssues (ldata : List (String × List String)) : List Issue :=
  match mapGet ldata "en" with
  | none => []
  | some base =>
    (REQUIRED_LANGUAGES.filter (fun l => l ≠ "en")).foldl
      (fun acc lang =>
        match mapGet ldata lang with
        | none => acc
        | some lf =>
          acc ++ (base.filter (fun f => !lf.contains f)).map
                  (fun f => (⟨"missing_field", lang, f⟩ : Issue))
              ++ (lf.filter (fun f => !base.contains f)).map
                  (fun f => (⟨"extra_field", lang, f⟩ : Issue)))
      []

/-- Embeds `validateHerbDirectory`.  `hasIssues` is set by the source on
each missing language, each parse error and each missing_field push
(extra_field pushes do not set it); the disjunction below is that
accumulated flag. -/
def validateHerbDirectory (d : HerbDir) : Validation :=
  { missingLanguages := (scanLangs d).1
    languages := (scanLangs d).2.1
    schemaInconsistencies := diffIssues (scanLangs d).2.2
    hasIssues := (scanLangs d).1 ≠ [] || ((scanLangs d).2.1.any (fun p => p.2.hasError)) ||
      (diffIssues (scanLangs d).2.2).any (fun i => i.type = "missing_field") }

/-- The completeness test of `verifyAllContent`: all language files
present and zero missing_field inconsistencies. -/
def isComplete (v : Validation) : Bool :=
  v.missingLanguages.length = 0 &&
    (v.schemaInconsistencies.filter (fun i => i.type = "missing_field")).length = 0

/-- `verifyAllContent` pushes an entity onto `problematicHerbs` exactly
when it is not counted complete. -/
def countedProblematic (d : HerbDir) : Bool := !(isComplete (validateHerbDirectory d))

/-- Specification predicate, stated against the store directly: every
canonical field present in the parsed English file is present in the
parsed file of language `lang` (vacuous when either file is missing or
unparsable). -/
def noMissingFrom (d : HerbDir) (lang : String) : Prop :=
  ∀ base data, d.en = .parsed base → langFile d lang = .parsed data →
    ∀ f ∈ getPresentContentFields base, f ∈ getPresentContentFields data

lemma no_missing_issue_iff (A B : List String) (lang : String) :
    (∀ (a : Issue), ∀ x ∈ A, x ∉ B →
        ({ type := "missing_field", language := lang, field := x } : Issue) = a →
        ¬a.type = "missing_field") ↔ ∀ f ∈ A, f ∈ B := by
  constructor
  · intro h f hf
    by_contra hnb
    exact h _ f hf hnb rfl rfl
  · intro h a x hx hnb _
    exact absurd (h x hx) hnb

lemma extra_issue_not_missing (A B : List String) (lang : String) :
    ∀ (a : Issue), ∀ x ∈ A, x ∉ B →
      ({ type := "extra_field", language := lang, field := x } : Issue) = a →
      ¬a.type = "missing_field" := by
  intro a x _ _ heq
  subst heq
  simp

/-- C5: an entity is counted complete iff all three language files exist
and no canonical field present in the parsed English file is missing from
a parsed non-baseline file; extra_field findings are absent from the
right-hand side — they never affect completeness. -/
theorem c5_complete_iff (d : HerbDir) :
    isComplete (validateHerbDirectory d) = true ↔
      ((d.en ≠ .absent ∧ d.zhHK ≠ .absent ∧ d.zhCN ≠ .absent) ∧
        ∀ lang ∈ ["zh-HK", "zh-CN"], noMissingFrom d lang) := by
  rcases d with ⟨en, hk, cn⟩
  cases en <;> cases hk <;> cases cn <;>
    simp [isComplete, validateHerbDirectory, scanLangs, diffIssues, REQUIRED_LANGUAGES,
      langFile, noMissingFrom, mapGet, List.filter_eq_nil_iff, List.length_eq_zero,
      List.mem_filter, no_missing_issue_iff, extra_issue_not_missing]
  all_goals intro _h
  all_goals try exact extra_issue_not_missing _ _ _
  exact ⟨fun h => h.2.1,
    fun h => ⟨extra_issue_not_missing _ _ _, h, extra_issue_not_missing _ _ _⟩⟩

/-- A fully consistent entity directory used as a witness. -/
def dirComplete : HerbDir :=
  { en := .parsed [("history", "h"), ("functions", "f")]
    zhHK := .parsed [("history", "h2"), ("functions", "f2")]
    zhCN := .parsed [("history", "h3"), ("functions", "f3")] }

/-- Witness for C5: the completeness equivalence evaluated on a concrete
consistent directory. -/
theorem c5_witness :
    (dirComplete.en ≠ .absent ∧ dirComplete.zhHK ≠ .absent ∧ dirComplete.zhCN ≠ .absent) ∧
      ∀ lang ∈ ["zh-HK", "zh-CN"], noMissingFrom dirComplete lang :=
  (c5_complete_iff dirComplete).mp (by decide)

/-- C10 (amended): when all three files exist and zh-HK fails to parse,
the verifier records a parse-error entry for zh-HK (with an empty field
list) and sets the per-entity issue flag, the missing-language list stays
empty and no missing_field diff mentions zh-HK; the entity is therefore
counted complete — and kept off the problematic list — exactly when the
remaining parsed languages produce no missing_field diff. -/
theorem c10_parse_error_amended (d : HerbDir)
    (hen : d.en ≠ .absent) (hcn : d.zhCN ≠ .absent) (hhk : d.zhHK = .unparsable) :
    (validateHerbDirectory d).missingLanguages = [] ∧
    mapGet (validateHerbDirectory d).languages "zh-HK" = some ⟨true, []⟩ ∧
    (validateHerbDirectory d).hasIssues = true ∧
    (∀ i ∈ (validateHerbDirectory d).schemaInconsistencies, i.language ≠ "zh-HK") ∧
    (isComplete (validateHerbDirectory d) = true ↔ noMissingFrom d "zh-CN") ∧
    (countedProblematic d = false ↔ noMissingFrom d "zh-CN") := by
  rcases d with ⟨en, hk, cn⟩
  simp only at hhk
  subst hhk
  cases en <;> cases cn <;> simp_all [validateHerbDirectory, scanLangs, diffIssues,
    REQUIRED_LANGUAGES, langFile, mapGet, isComplete, countedProblematic, noMissingFrom,
    List.filter_eq_nil_iff, List.length_eq_zero, no_missing_issue_iff,
    extra_issue_not_missing]
  refine ⟨?_, ?_⟩
  · rintro i (⟨a, _, rfl⟩ | ⟨a, _, rfl⟩) <;> simp
  · intro _h
    exact extra_issue_not_missing _ _ _

/-- The directory refuting C10 as stated: all three files exist, zh-HK
fails to parse, and zh-CN lacks the functions field that English has. -/
def dirC10 : HerbDir :=
  { en := .parsed [("history", "hist"), ("functions", "fn")]
    zhHK := .unparsable
    zhCN := .parsed [("history", "hist")] }

/-- Counterexample for C10 as stated: this directory has all three files
with zh-HK unparsable, yet the verifier counts it incomplete and puts it
on the problematic list, because the parsed zh-CN file still contributes
a missing_field diff. -/
theorem c10_counterexample :
    dirC10.zhHK = .unparsable ∧
    dirC10.en ≠ .absent ∧ dirC10.zhCN ≠ .absent ∧
    isComplete (validateHerbDirectory dirC10) = false ∧
    countedProblematic dirC10 = true := by
  decide

/-- A directory witnessing C10's amended statement: zh-HK unparsable and
the zh-CN file consistent with English. -/
def dirC10ok : HerbDir :=
  { en := .parsed [("history", "hist")]
    zhHK := .unparsable
    zhCN := .parsed [("history", "hist")] }

/-- Witness for C10: the amended theorem instantiated at `dirC10ok`. -/
theorem c10_witness :
    (validateHerbDirectory dirC10ok).missingLanguages = [] ∧
    mapGet (validateHerbDirectory dirC10ok).languages "zh-HK" = some ⟨true, []⟩ ∧
    (validateHerbDirectory dirC10ok).hasIssues = true := by
  have h := c10_parse_error_amended dirC10ok (by decide) (by decide) (by decide)
  exact ⟨h.1, h.2.1, h.2.2.1⟩

/-! ## Coverage percentages (`printPrettyReport` / `generateMarkdownReport`) -/

/-- JS `Math.round`: round half up. -/
def jsRound (q : ℚ) : ℤ := ⌊q + 1 / 2⌋

/-- The per-language coverage computed by the report functions:
`present = totalHerbs - missing` (a Nat subtraction — the counter never
exceeds the total) and `Math.round(present / total * 100)`. -/
def coveragePercentage (total missing : Nat) : ℤ :=
  jsRound (((total - missing : Nat) : ℚ) / (total : ℚ) * 100)

/-- The formula of the spec, with the subtraction in ℚ:
`round((totalHerbs - missingCount) / totalHerbs * 100)`. -/
def coverageSpec (total missing : Nat) : ℤ :=
  jsRound (((total : ℚ) - (missing : ℚ)) / (total : ℚ) * 100)

/-- `verifyAllContent`'s per-language missing-file counter: one increment
per occurrence of the language in an entity's missing-language list. -/
def missingCount (dirs : List HerbDir) (lang : String) : Nat :=
  dirs.foldl (fun n d => n + ((validateHerbDirectory d).missingLanguages.count lang)) 0

/-- The percentage the report prints for one language over a store. -/
def reportedCoverage (dirs : List HerbDir) (lang : String) : ℤ :=
  coveragePercentage dirs.length (missingCount dirs lang)

lemma foldl_add_count (f : HerbDir → Nat) (dirs : List HerbDir) :
    ∀ n : Nat, dirs.foldl (fun n d => n + f d) n = n + (dirs.map f).sum := by
  induction dirs with
  | nil => intro n; simp
  | cons d rest ih =>
    intro n
    simp only [List.foldl_cons, List.map_cons, List.sum_cons]
    rw [ih]
    omega

/-- An entity directory with all three files present. -/
def dirAllFiles : HerbDir :=
  { en := .parsed [], zhHK := .parsed [], zhCN := .parsed [] }

/-- An entity directory whose zh-CN file is missing. -/
def dirNoCn : HerbDir :=
  { en := .parsed [], zhHK := .parsed [], zhCN := .absent }

/-- The 178-entity store of the end-to-end scenario: 3 entities lack the
zh-CN file. -/
def c8dirs : List HerbDir := List.replicate 175 dirAllFiles ++ List.replicate 3 dirNoCn

lemma missingCount_c8 : missingCount c8dirs "zh-CN" = 3 := by
  unfold missingCount c8dirs
  rw [foldl_add_count]
  rw [List.map_append, List.map_replicate, List.map_replicate, List.sum_append,
    List.sum_replicate, List.sum_replicate]
  norm_num
  rw [show (validateHerbDirectory dirNoCn).missingLanguages.count "zh-CN" = 1 from by decide,
    show (validateHerbDirectory dirAllFiles).missingLanguages.count "zh-CN" = 0 from by decide]

/-- C8: the reported coverage percentage is round((total - missing) /
total * 100); on the concrete 178-entity store with 3 entities lacking
zh-CN, the reported zh-CN coverage is 98. -/
theorem c8_coverage :
    (∀ total missing : Nat, missing ≤ total → 0 < total →
      coveragePercentage total missing = coverageSpec total missing) ∧
    c8dirs.length = 178 ∧ missingCount c8dirs "zh-CN" = 3 ∧
    reportedCoverage c8dirs "zh-CN" = 98 ∧
    coverageSpec 178 3 = 98 := by
  have hgen : ∀ total missing : Nat, missing ≤ total → 0 < total →
      coveragePercentage total missing = coverageSpec total missing := by
    intro total missing hle _
    unfold coveragePercentage coverageSpec
    rw [Nat.cast_sub hle]
  have hlen : c8dirs.length = 178 := by
    unfold c8dirs
    rw [List.length_append, List.length_replicate, List.length_replicate]
  have hspec : coverageSpec 178 3 = 98 := by
    unfold coverageSpec jsRound
    rw [Int.floor_eq_iff]
    constructor <;> norm_num
  refine ⟨hgen, hlen, missingCount_c8, ?_, hspec⟩
  unfold reportedCoverage
  rw [hlen, missingCount_c8, hgen 178 3 (by norm_num) (by norm_num), hspec]

/-- Witness for C8: the general coverage equation applied at 178 total
and 3 missing. -/
theorem c8_witness :
    ((3 : Nat) ≤ 178 ∧ (0 : Nat) < 178) ∧
      coveragePercentage 178 3 = coverageSpec 178 3 :=
  ⟨⟨by norm_num, by norm_num⟩, c8_coverage.1 178 3 (by norm_num) (by norm_num)⟩

/-! ## Section extraction and the length threshold (C6) -/

/-- Map lookups after `obj[k] = v`: the assigned entry is found when the
key was already present and the list is rewritten in place. -/
lemma find?_overwrite {α : Type} (k : String) (v : α) :
    ∀ m : List (String × α), m.any (fun q => q.1 = k) = true →
      (m.map (fun p => if p.1 = k then (k, v) else p)).find? (fun q => q.1 = k)
        = some (k, v) := by
  intro m
  induction m with
  | nil => intro h; simp at h
  | cons p t ih =>
    intro h
    by_cases hp : p.1 = k
    · rw [List.map_cons, if_pos hp]
      exact List.find?_cons_of_pos _ (by simp)
    · rw [List.map_cons, if_neg hp, List.find?_cons_of_neg _ (by simpa using hp)]
      apply ih
      rw [List.any_cons, Bool.or_eq_true] at h
      rcases h with h | h
      · exact absurd (by simpa using h) hp
      · exact h

/-- Map lookups after `map.set(k, v)` appended a fresh entry. -/
lemma find?_appended {α : Type} (k : String) (v : α) :
    ∀ m : List (String × α), m.any (fun q => q.1 = k) = false →
      (m ++ [(k, v)]).find? (fun q => q.1 = k) = some (k, v) := by
  intro m
  induction m with
  | nil =>
    intro _
    exact List.find?_cons_of_pos _ (by simp)
  | cons p t ih =>
    intro h
    by_cases hp : p.1 = k
    · rw [List.any_cons] at h
      simp [hp] at h
    · rw [List.cons_append, List.find?_cons_of_neg _ (by simpa using hp)]
      apply ih
      rw [List.any_cons] at h
      simpa [hp] using h

lemma mapGet_mapSet_self {α : Type} (m : List (String × α)) (k : String) (v : α) :
    mapGet (mapSet m k v) k = some v := by
  unfold mapSet mapGet
  split
  case isTrue h =>
    rw [find?_overwrite k v m h]
    rfl
  case isFalse h =>
    rw [find?_appended k v m (by rwa [Bool.not_eq_true] at h)]
    rfl

lemma mapGet_mapSet_ne {α : Type} (m : List (String × α)) (k k' : String) (v : α)
    (hne : k' ≠ k) : mapGet (mapSet m k v) k' = mapGet m k' := by
  unfold mapSet mapGet
  split
  case isTrue h =>
    clear h
    induction m with
    | nil => rfl
    | cons p t ih =>
      by_cases hp : p.1 = k
      · have hp' : ¬ p.1 = k' := by rw [hp]; exact Ne.symm hne
        rw [List.map_cons, if_pos hp, List.find?_cons_of_neg _ (by simpa using Ne.symm hne),
          List.find?_cons_of_neg _ (by simpa using hp')]
        exact ih
      · by_cases hp' : p.1 = k'
        · rw [List.map_cons, if_neg hp, List.find?_cons_of_pos _ (by simpa using hp'),
            List.find?_cons_of_pos _ (by simpa using hp')]
        · rw [List.map_cons, if_neg hp, List.find?_cons_of_neg _ (by simpa using hp'),
            List.find?_cons_of_neg _ (by simpa using hp')]
          exact ih
  case isFalse h =>
    clear h
    induction m with
    | nil => simp [List.find?, Ne.symm hne]
    | cons p t ih =>
      by_cases hp' : p.1 = k'
      · rw [List.cons_append, List.find?_cons_of_pos _ (by simpa using hp'),
          List.find?_cons_of_pos _ (by simpa using hp')]
      · rw [List.cons_append, List.find?_cons_of_neg _ (by simpa using hp'),
          List.find?_cons_of_neg _ (by simpa using hp')]
        exact ih

/-- Match the tail of a br tag after the opening angle bracket ("br",
optional whitespace, optional slash, closing angle bracket, case-insensitive),
returning how many characters it spans. -/
def brLen (l : List Char) : Option Nat :=
  match l with
  | b :: r :: t =>
    if Char.toLower b = 'b' ∧ Char.toLower r = 'r' then
      match t.drop (t.takeWhile isJsWs).length with
      | '/' :: '>' :: _ => some (2 + (t.takeWhile isJsWs).length + 2)
      | '>' :: _ => some (2 + (t.takeWhile isJsWs).length + 1)
      | _ => none
    else none
  | _ => none

/-- The br-to-newline replace of the cleaning chains (fuelled so that it
reduces; fuel = input length always suffices). -/
def replaceBrFuel : Nat → List Char → List Char
  | _, [] => []
  | 0, l => l
  | fuel + 1, c :: t =>
    if c = '<' then
      match brLen t with
      | some n => '\n' :: replaceBrFuel fuel (t.drop n)
      | none => '<' :: replaceBrFuel fuel t
    else c :: replaceBrFuel fuel t

/-- Replace br tags by newlines. -/
def replaceBr (l : List Char) : List Char := replaceBrFuel l.length l

/-- The tag-stripping replace of the fix script: an angle-bracketed run of
one or more characters up to a closing bracket becomes one space
(fuelled). -/
def stripTagsFuel : Nat → List Char → List Char
  | _, [] => []
  | 0, l => l
  | fuel + 1, c :: t =>
    if c = '<' then
      if (t.takeWhile (fun d => d ≠ '>')).length ≠ 0 ∧
          (t.takeWhile (fun d => d ≠ '>')).length < t.length then
        ' ' :: stripTagsFuel fuel (t.drop ((t.takeWhile (fun d => d ≠ '>')).length + 1))
      else '<' :: stripTagsFuel fuel t
    else c :: stripTagsFuel fuel t

/-- Strip markup tags, leaving one space each. -/
def stripTags (l : List Char) : List Char := stripTagsFuel l.length l

/-- The fix script's content cleaning: br tags to newlines, remaining
tags to spaces, whitespace runs to single spaces, trim. -/
def cleanFixContent (raw : String) : String :=
  ⟨jsTrimChars (collapseRuns isJsWs ' ' (stripTags (replaceBr raw.toList)))⟩

/-- Embeds `mapTitleToKey` of the fix script: ordered case-insensitive
keyword matching (English keywords against the lower-cased title, CJK
keywords against the raw title); unrecognized titles yield no key. -/
def mapTitleToKey (title : String) : Option String :=
  let t := jsToLower title
  if jsIncludes t "history" || jsIncludes title "歷史" || jsIncludes title "历史" then
    some "history"
  else if jsIncludes t "introduction" || jsIncludes t "intro" ||
      jsIncludes title "簡介" || jsIncludes title "简介" then
    some "introduction"
  else if jsIncludes t "traditional" || jsIncludes title "傳統" || jsIncludes title "传统" ||
      jsIncludes title "傅統" || jsIncludes title "傅统" then
    some "traditional_usage"
  else if jsIncludes t "modern" || jsIncludes title "現代" || jsIncludes title "现代" then
    some "modern_usage"
  else if jsIncludes t "function" || jsIncludes title "功能" then
    some "functions"
  else if jsIncludes t "source" || jsIncludes title "來源" || jsIncludes title "来源" then
    some "botanical_source"
  else if jsIncludes t "research" || jsIncludes title "研究" then
    some "modern_research"
  else if jsIncludes t "importance" || jsIncludes title "重要性" then
    some "importance"
  else none

/-- Embeds the title-to-key chain of `extractContentSections` (v6
scraper); an unrecognized title falls back to the lower-cased title
itself as the key. -/
def extractKeyV6 (title : String) : String :=
  let t := jsToLower title
  if jsIncludes t "history" || jsIncludes title "歷史" || jsIncludes title "历史" then
    "history"
  else if jsIncludes t "introduction" || jsIncludes title "簡介" || jsIncludes title "简介" then
    "introduction"
  else if jsIncludes t "traditional" || jsIncludes title "傳統" || jsIncludes title "传统" ||
      jsIncludes title "用法" then
    "traditional_usage"
  else if jsIncludes t "modern research" || jsIncludes title "研究" then
    "modern_research"
  else if jsIncludes t "botanical" || (jsIncludes t "source" && jsIncludes t "plant") ||
      jsIncludes title "來源" || jsIncludes title "来源" then
    "botanical_source"
  else if jsIncludes t "function" || jsIncludes title "功能" || jsIncludes title "功效" then
    "functions"
  else if jsIncludes t "food source" || jsIncludes title "食物來源" ||
      jsIncludes title "食物来源" then
    "food_sources"
  else if jsIncludes t "importance" || jsIncludes title "重要性" then
    "importance"
  else if jsIncludes t "precaution" || jsIncludes t "warning" || jsIncludes title "注意" then
    "precautions"
  else if jsIncludes t "dosage" || jsIncludes t "dose" || jsIncludes title "劑量" ||
      jsIncludes title "剂量" then
    "dosage"
  else if jsIncludes t "modern" || jsIncludes title "現代" || jsIncludes title "现代" then
    "modern_usage"
  else t

/-- Embeds the section-name normalization of `extractContentSections` (v3
scraper); the input is the cleaned lower-cased title, which is also the
fallback key. -/
def extractKeyV3 (title : String) : String :=
  if jsIncludes title "history" then "history"
  else if jsIncludes title "introduction" then "introduction"
  else if jsIncludes title "traditional" || jsIncludes title "用法" ||
      jsIncludes title "傳統" then "traditional_usage"
  else if jsIncludes title "modern" || jsIncludes title "research" ||
      jsIncludes title "研究" then "modern_research"
  else if jsIncludes title "botanical" || jsIncludes title "來源" then "botanical_source"
  else if jsIncludes title "function" || jsIncludes title "功能" then "functions"
  else if jsIncludes title "food source" || jsIncludes title "食物來源" then "food_sources"
  else if jsIncludes title "importance" || jsIncludes title "重要性" then "importance"
  else if jsIncludes title "precaution" || jsIncludes title "注意" then "precautions"
  else if jsIncludes title "dosage" || jsIncludes title "劑量" then "dosage"
  else title

/-- The storage decision of `extractContentFromHtml` (fix script) for one
section block, given the extracted title and the cleaned content: store
only when the content is strictly longer than 10 characters and the title
maps to a canonical key.  (JS `String.length` counts UTF-16 units; the
pipeline's strings stay within the basic plane, where that equals the
character count used here.) -/
def storeBlockFix (sections : List (String × String)) (title content : String) :
    List (String × String) :=
  if content.length > 10 then
    match mapTitleToKey title with
    | some key => mapSet sections key content
    | none => sections
  else sections

/-- The storage decision of `extractContentSections` (v6 scraper): store
under the derived (or fallback) key when the content is non-empty and
strictly longer than 10 characters. -/
def storeBlockV6 (sections : List (String × String)) (title content : String) :
    List (String × String) :=
  if content ≠ "" ∧ content.length > 10 then
    mapSet sections (extractKeyV6 title) content
  else sections

/-- The storage decision of `extractContentSections` (v3 scraper): store
under the derived (or fallback) key whenever the content is non-empty —
no length threshold at all. -/
def storeBlockV3 (sections : List (String × String)) (titleLower content : String) :
    List (String × String) :=
  if content ≠ "" then mapSet sections (extractKeyV3 titleLower) content
  else sections

/-- One block of the fix script's extraction loop: clean the raw content,
then apply the storage decision. -/
def processBlockFix (sections : List (String × String)) (title rawContent : String) :
    List (String × String) :=
  storeBlockFix sections title (cleanFixContent rawContent)

/-- C6 (amended): blocks whose cleaned content has 10 characters or fewer
are discarded by the fix script and the v6 scraper (the threshold is
strictly greater than 10, so exactly-10-character content is discarded
too); content of 11 or more characters with a recognized title is stored
by the fix script, the v6 scraper stores any over-threshold content under
its derived or fallback key, and the v3 scraper applies no length
threshold at all — any non-empty cleaned content is stored. -/
theorem c6_threshold_amended :
    (∀ (sections : List (String × String)) (title content : String),
      content.length ≤ 10 →
        storeBlockFix sections title content = sections ∧
        storeBlockV6 sections title content = sections) ∧
    (∀ (sections : List (String × String)) (title content key : String),
      10 < content.length → mapTitleToKey title = some key →
        mapGet (storeBlockFix sections title content) key = some content) ∧
    (∀ (sections : List (String × String)) (title content : String),
      mapTitleToKey title = none → storeBlockFix sections title content = sections) ∧
    (∀ (sections : List (String × String)) (title content : String),
      10 < content.length →
        mapGet (storeBlockV6 sections title content) (extractKeyV6 title) = some content) ∧
    (∀ (sections : List (String × String)) (titleLower content : String),
      content ≠ "" →
        mapGet (storeBlockV3 sections titleLower content) (extractKeyV3 titleLower)
          = some content) := by
  refine ⟨?_, ?_, ?_, ?_, ?_⟩
  · intro sections title content hle
    constructor
    · unfold storeBlockFix
      rw [if_neg (by omega)]
    · unfold storeBlockV6
      rw [if_neg (by omega)]
  · intro sections title content key hgt hkey
    unfold storeBlockFix
    rw [if_pos hgt, hkey]
    exact mapGet_mapSet_self sections key content
  · intro sections title content hkey
    unfold storeBlockFix
    split
    · rw [hkey]
    · rfl
  · intro sections title content hgt
    have hne : content ≠ "" := by
      intro hcon
      rw [hcon] at hgt
      simp at hgt
    unfold storeBlockV6
    rw [if_pos ⟨hne, hgt⟩]
    exact mapGet_mapSet_self sections (extractKeyV6 title) content
  · intro sections titleLower content hne
    unfold storeBlockV3
    rw [if_pos hne]
    exact mapGet_mapSet_self sections (extractKeyV3 titleLower) content

/-- Counterexample for C6 as stated: a recognized title with cleaned
content of exactly 10 characters is NOT stored (the fix script requires
strictly more than 10), refuting "cleaned content of 10 or more
characters with a recognized title is stored". -/
theorem c6_counterexample :
    cleanFixContent "<b>abcdefghij</b>" = "abcdefghij" ∧
    ("abcdefghij" : String).length = 10 ∧
    mapTitleToKey "History" = some "history" ∧
    processBlockFix [] "History" "<b>abcdefghij</b>" = [] := by
  decide

/-- Witness for C6: an 11-character block with a recognized title is
stored; a 10-character one is discarded. -/
theorem c6_witness :
    mapGet (storeBlockFix [] "History" "abcdefghijk") "history" = some "abcdefghijk" ∧
    storeBlockFix [] "History" "abcdefghij" = [] :=
  ⟨c6_threshold_amended.2.1 [] "History" "abcdefghijk" "history" (by decide) (by decide),
    (c6_threshold_amended.1 [] "History" "abcdefghij" (by decide)).1⟩

/-! ## The repair pass (`fixHerbEntry`, fix script) -/

/-- The missing fields computed for one language: baseline present fields
absent from the language's present-field set, in baseline order. -/
def missingFieldsFor (baseData langData : List (String × String)) : List String :=
  (getPresentContentFields baseData).filter
    (fun f => !(getPresentContentFields langData).contains f)

/-- The update loop of `fixHerbEntry` for one language: for each missing
field, copy the re-extracted section when one was found (truthy), and
remember whether anything changed. -/
def applyFix (sections : List (String × String)) :
    List String → List (String × String) → Bool → List (String × String) × Bool
  | [], data, updated => (data, updated)
  | f :: fs, data, updated =>
    match mapGet sections f with
    | some v =>
      if v ≠ "" then applyFix sections fs (mapSet data f v) true
      else applyFix sections fs data updated
    | none => applyFix sections fs data updated

/-- One language of `fixHerbEntry`: compute the missing fields, backfill
from the re-extracted sections, and write the updated record only when
something changed and --dry-run is not set.  The re-fetch and
re-extraction are environment: `sections` is the result of
`extractContentFromHtml` on the re-fetched page. -/
def fixLanguage (baseData langData sections : List (String × String)) (dryRun : Bool) :
    List (String × String) × Option (List (String × String)) :=
  ((applyFix sections (missingFieldsFor baseData langData) langData false).1,
    if (applyFix sections (missingFieldsFor baseData langData) langData false).2 && !dryRun then
      some (applyFix sections (missingFieldsFor baseData langData) langData false).1
    else none)

lemma applyFix_not_mem (sections : List (String × String)) :
    ∀ (fs : List String) (data : List (String × String)) (u : Bool) (f : String),
      f ∉ fs → mapGet (applyFix sections fs data u).1 f = mapGet data f := by
  intro fs
  induction fs with
  | nil => intro data u f _; rfl
  | cons g fs ih =>
    intro data u f hf
    have hfg : f ≠ g := fun hcon => hf (hcon ▸ List.mem_cons_self _ _)
    have hfs : f ∉ fs := fun hcon => hf (List.mem_cons_of_mem _ hcon)
    rcases hg : mapGet sections g with _ | v
    · simp only [applyFix, hg]
      exact ih data u f hfs
    · simp only [applyFix, hg]
      by_cases hv : v ≠ ""
      · rw [if_pos hv, ih (mapSet data g v) true f hfs]
        exact mapGet_mapSet_ne data g f v hfg
      · rw [if_neg hv]
        exact ih data u f hfs

lemma applyFix_not_recovered (sections : List (String × String)) :
    ∀ (fs : List String) (data : List (String × String)) (u : Bool) (f : String),
      (mapGet sections f = none ∨ mapGet sections f = some "") →
      mapGet (applyFix sections fs data u).1 f = mapGet data f := by
  intro fs
  induction fs with
  | nil => intro data u f _; rfl
  | cons g fs ih =>
    intro data u f hsec
    rcases hg : mapGet sections g with _ | v
    · simp only [applyFix, hg]
      exact ih data u f hsec
    · simp only [applyFix, hg]
      by_cases hv : v ≠ ""
      · rw [if_pos hv]
        by_cases hfg : f = g
        · subst hfg
          rcases hsec with hsec | hsec <;> rw [hsec] at hg
          · exact absurd hg (by simp)
          · exact absurd (Option.some.inj hg).symm hv
        · rw [ih (mapSet data g v) true f hsec]
          exact mapGet_mapSet_ne data g f v hfg
      · rw [if_neg hv]
        exact ih data u f hsec

lemma applyFix_preserves (sections : List (String × String)) :
    ∀ (fs : List String) (data : List (String × String)) (u : Bool) (f : String)
      (v : String), mapGet data f = some v → mapGet sections f = some v →
      mapGet (applyFix sections fs data u).1 f = some v := by
  intro fs
  induction fs with
  | nil => intro data u f v hd _; exact hd
  | cons g fs ih =>
    intro data u f v hd hs
    rcases hg : mapGet sections g with _ | w
    · simp only [applyFix, hg]
      exact ih data u f v hd hs
    · simp only [applyFix, hg]
      by_cases hw : w ≠ ""
      · rw [if_pos hw]
        by_cases hfg : f = g
        · subst hfg
          have hvw : v = w := Option.some.inj (hs ▸ hg)
          subst hvw
          exact ih (mapSet data f v) true f v (mapGet_mapSet_self data f v) hs
        · exact ih (mapSet data g w) true f v
            ((mapGet_mapSet_ne data g f w hfg).trans hd) hs
      · rw [if_neg hw]
        exact ih data u f v hd hs

lemma applyFix_mem_set (sections : List (String × String)) :
    ∀ (fs : List String) (data : List (String × String)) (u : Bool) (f : String)
      (v : String), f ∈ fs → mapGet sections f = some v → v ≠ "" →
      mapGet (applyFix sections fs data u).1 f = some v := by
  intro fs
  induction fs with
  | nil => intro data u f v hf _ _; exact absurd hf (List.not_mem_nil f)
  | cons g fs ih =>
    intro data u f v hf hs hv
    rcases hg : mapGet sections g with _ | w
    · simp only [applyFix, hg]
      have hfg : f ≠ g := fun hcon => by rw [hcon, hg] at hs; exact absurd hs (by simp)
      exact ih data u f v ((List.mem_cons.mp hf).resolve_left hfg) hs hv
    · simp only [applyFix, hg]
      by_cases hw : w ≠ ""
      · rw [if_pos hw]
        by_cases hfg : f = g
        · subst hfg
          have hvw : v = w := Option.some.inj (hs ▸ hg)
          subst hvw
          exact applyFix_preserves sections fs (mapSet data f v) true f v
            (mapGet_mapSet_self data f v) hs
        · exact ih (mapSet data g w) true f v ((List.mem_cons.mp hf).resolve_left hfg) hs hv
      · rw [if_neg hw]
        by_cases hfg : f = g
        · subst hfg
          have hvw : v = w := Option.some.inj (hs.symm.trans hg)
          exact absurd (hvw.trans (not_not.mp hw)) hv
        · exact ih data u f v ((List.mem_cons.mp hf).resolve_left hfg) hs hv

lemma applyFix_changed (sections : List (String × String)) :
    ∀ (fs : List String) (data : List (String × String)) (u : Bool) (f : String),
      mapGet (applyFix sections fs data u).1 f ≠ mapGet data f →
      f ∈ fs ∧ ∃ v, mapGet sections f = some v ∧ v ≠ "" ∧
        mapGet (applyFix sections fs data u).1 f = some v := by
  intro fs
  induction fs with
  | nil => intro data u f hne; exact absurd rfl hne
  | cons g fs ih =>
    intro data u f hne
    by_cases hf : f ∈ g :: fs
    · refine ⟨hf, ?_⟩
      rcases hs : mapGet sections f with _ | v
      · rw [applyFix_not_recovered sections (g :: fs) data u f (Or.inl hs)] at hne
        exact absurd rfl hne
      · by_cases hv : v = ""
        · subst hv
          rw [applyFix_not_recovered sections (g :: fs) data u f (Or.inr hs)] at hne
          exact absurd rfl hne
        · exact ⟨v, rfl, hv, applyFix_mem_set sections (g :: fs) data u f v hf hs hv⟩
    · rw [applyFix_not_mem sections (g :: fs) data u f hf] at hne
      exact absurd rfl hne

/-- C9: the repair pass adds exactly the fields that were both missing
(present in baseline, absent from the record) and successfully
re-extracted; every present field keeps its value, fields the re-fetch
did not recover stay as they were, and under --dry-run nothing is
written. -/
theorem c9_repair_frame (baseData langData sections : List (String × String))
    (dryRun : Bool) :
    (∀ f ∈ getPresentContentFields langData,
      mapGet (fixLanguage baseData langData sections dryRun).1 f = mapGet langData f) ∧
    (∀ f, mapGet (fixLanguage baseData langData sections dryRun).1 f ≠ mapGet langData f →
      f ∈ missingFieldsFor baseData langData ∧ ∃ v, mapGet sections f = some v ∧ v ≠ "" ∧
        mapGet (fixLanguage baseData langData sections dryRun).1 f = some v) ∧
    (∀ f v, f ∈ missingFieldsFor baseData langData → mapGet sections f = some v → v ≠ "" →
      mapGet (fixLanguage baseData langData sections dryRun).1 f = some v) ∧
    (∀ f, mapGet sections f = none ∨ mapGet sections f = some "" →
      mapGet (fixLanguage baseData langData sections dryRun).1 f = mapGet langData f) ∧
    (dryRun = true → (fixLanguage baseData langData sections dryRun).2 = none) := by
  refine ⟨?_, ?_, ?_, ?_, ?_⟩
  · intro f hf
    apply applyFix_not_mem
    intro hcon
    have hcf := List.of_mem_filter hcon
    rw [Bool.not_eq_true'] at hcf
    exact absurd hf (by simpa using hcf)
  · intro f hne
    exact applyFix_changed sections _ langData false f hne
  · intro f v hf hs hv
    exact applyFix_mem_set sections _ langData false f v hf hs hv
  · intro f hs
    exact applyFix_not_recovered sections _ langData false f hs
  · intro hdry
    unfold fixLanguage
    rw [hdry]
    simp

/-- Witness for C9: a record missing `functions` (present in baseline)
with the re-fetch recovering it; the present `history` keeps its value
and a dry run writes nothing. -/
theorem c9_witness :
    mapGet (fixLanguage [("history", "a"), ("functions", "b")] [("history", "x")]
        [("functions", "recovered text")] false).1 "functions" = some "recovered text" ∧
    mapGet (fixLanguage [("history", "a"), ("functions", "b")] [("history", "x")]
        [("functions", "recovered text")] false).1 "history" = some "x" ∧
    (fixLanguage [("history", "a"), ("functions", "b")] [("history", "x")]
        [("functions", "recovered text")] true).2 = none := by
  refine ⟨?_, ?_, ?_⟩
  · exact (c9_repair_frame [("history", "a"), ("functions", "b")] [("history", "x")]
      [("functions", "recovered text")] false).2.2.1 "functions" "recovered text"
      (by decide) (by decide) (by decide)
  · have h := (c9_repair_frame [("history", "a"), ("functions", "b")] [("history", "x")]
      [("functions", "recovered text")] false).1 "history" (by decide)
    rw [h]
    decide
  · exact (c9_repair_frame [("history", "a"), ("functions", "b")] [("history", "x")]
      [("functions", "recovered text")] true).2.2.2.2 rfl

/-! ## The content-store writer and its round trip (C7) -/

/-- A parsed page as `generateYaml` (v6) consumes it: `data.url`,
`data.title`, `data.scientificName`, `data.category` and the extracted
`data.sections`. -/
structure PageData where
  url : String
  title : String
  scientificName : String
  category : String
  sections : List (String × String)
deriving DecidableEq

/-- The canonical write order of `generateYaml` (v6). -/
def sectionOrderV6 : List String :=
  ["history", "introduction", "botanical_source", "traditional_usage", "modern_usage",
   "modern_research", "functions", "importance", "food_sources", "precautions", "dosage"]

/-- Escape double quotes for the quoted scalar lines. -/
def escQuotes (s : String) : String :=
  ⟨s.toList.flatMap (fun c => if c = '"' then ['\\', '"'] else [c])⟩

/-- One block-scalar content region: two-space indent, with inner
newlines re-indented. -/
def indentSection (v : String) : String :=
  ⟨' ' :: ' ' :: v.toList.flatMap (fun c => if c = '\n' then ['\n', ' ', ' '] else [c])⟩

/-- The three lines one present section contributes to the document: the
block-scalar header, the indented content, a separating blank. -/
def emitSection (sections : List (String × String)) (sec : String) : List String :=
  match mapGet sections sec with
  | some v => if v ≠ "" then [sec ++ ": |", indentSection v, ""] else []
  | none => []

/-- Embeds `generateYaml` (v6) as the list of lines it pushes; the
timestamp `ts` stands for `new Date().toISOString()` (environment). -/
def generateYamlLines (data : PageData) (language slug ts : String) : List String :=
  ["# " ++ data.title, "# Source: " ++ data.url, "# Language: " ++ language, "",
   "id: \"" ++ slug ++ "\"",
   "slug: \"" ++ slug ++ "\"",
   "category: \"" ++ data.category ++ "\"",
   "title: \"" ++ escQuotes data.title ++ "\""]
  ++ (if data.scientificName ≠ "" then
        ["scientific_name: \"" ++ escQuotes data.scientificName ++ "\""] else [])
  ++ ["image: \"images/" ++ slug ++ ".jpg\"", ""]
  ++ sectionOrderV6.flatMap (emitSection data.sections)
  ++ ["metadata:", "  source: \"vitaherbapedia.com\"",
      "  source_url: \"" ++ data.url ++ "\"",
      "  scraped_at: \"" ++ ts ++ "\"",
      "  language: \"" ++ language ++ "\""]

/-- `lines.join('\n')`. -/
def joinLines (lines : List String) : String :=
  ⟨List.intercalate ['\n'] (lines.map String.toList)⟩

/-- Embeds `generateYaml` (v6): the document string. -/
def generateYaml (data : PageData) (language slug ts : String) : String :=
  joinLines (generateYamlLines data language slug ts)

/-- Undo the writer's quote escaping: a backslash immediately before a
double quote is dropped. -/
def unesc : List Char → List Char
  | [] => []
  | c :: t => if c = '\\' ∧ t.head? = some '"' then unesc t else c :: unesc t

/-- Remove the closing double quote of a quoted scalar. -/
def stripQuoteEnd (l : List Char) : List Char :=
  if l.reverse.head? = some '"' then l.reverse.tail.reverse else l

/-- State of the line-by-line YAML reader: the block scalar being
collected, if any (key and reversed list of stripped content lines), and
the mapping read so far. -/
structure ParseState where
  pending : Option (String × List (List Char))
  acc : List (String × String)
deriving DecidableEq

/-- Close the open block scalar, if any: its value is the collected lines
joined by newlines, plus the final clipped newline. -/
def flushPending (st : ParseState) : List (String × String) :=
  match st.pending with
  | some (key, blines) =>
      st.acc ++ [(key, ⟨List.intercalate ['\n'] blines.reverse ++ ['\n']⟩)]
  | none => st.acc

/-- Read one top-level line: skip comments, indented lines and blanks;
`key: |` opens a block scalar; `key: "value"` records an unescaped quoted
scalar; anything else (such as `metadata:`) is skipped. -/
def parseTop (st : ParseState) (line : String) : ParseState :=
  match line.toList with
  | [] => st
  | c :: cs =>
    if c = '#' ∨ c = ' ' then st
    else
      match (c :: cs).drop ((c :: cs).takeWhile (fun d => d ≠ ':')).length with
      | ':' :: ' ' :: '|' :: [] =>
        { pending := some (⟨(c :: cs).takeWhile (fun d => d ≠ ':')⟩, []), acc := st.acc }
      | ':' :: ' ' :: '"' :: vrest =>
        { pending := none,
          acc := st.acc ++ [(⟨(c :: cs).takeWhile (fun d => d ≠ ':')⟩,
            ⟨unesc (stripQuoteEnd vrest)⟩)] }
      | _ => st

/-- Read one line: while a block scalar is open, two-space-indented lines
extend it and anything else closes it first. -/
def parseLineStep (st : ParseState) (line : String) : ParseState :=
  match st.pending with
  | some (key, blines) =>
    if line.toList.take 2 = [' ', ' '] then
      { pending := some (key, line.toList.drop 2 :: blines), acc := st.acc }
    else parseTop { pending := none, acc := flushPending st } line
  | none => parseTop st line

/-- Modelled semantics of `yaml.load` (the js-yaml dependency, an
external library) on the document shape `generateYaml` emits: line-based
reading of comments, quoted scalars and literal block scalars with clip
chomping; nested mappings such as `metadata` are skipped, as the
round-trip claims only concern top-level canonical fields. -/
def parseYamlModel (s : String) : List (String × String) :=
  flushPending
    (((s.toList.splitOn '\n').map (fun l => (⟨l⟩ : String))).foldl parseLineStep ⟨none, []⟩)

/-- The value a quoted scalar line reads back. -/
def quotedVal (v : String) : String := ⟨unesc (stripQuoteEnd (v.toList ++ ['"']))⟩

/-- The value the read-back mapping holds for a section key: the stored
content plus the block scalar's clipped trailing newline. -/
def writtenVal (sections : List (String × String)) (sec : String) : Option String :=
  match mapGet sections sec with
  | some v => if v ≠ "" then some ⟨v.toList ++ ['\n']⟩ else none
  | none => none

/-- A key safe to appear on a generated `key: ...` line: non-empty, free
of colons, not starting a comment or an indented line. -/
def keyOK (key : String) : Prop :=
  key.toList ≠ [] ∧ (∀ c ∈ key.toList, c ≠ ':') ∧
    key.toList.head? ≠ some '#' ∧ key.toList.head? ≠ some ' '

instance decKeyOK (key : String) : Decidable (keyOK key) :=
  inferInstanceAs (Decidable (key.toList ≠ [] ∧ (∀ c ∈ key.toList, c ≠ ':')
    ∧ key.toList.head? ≠ some '#' ∧ key.toList.head? ≠ some ' '))

lemma toList_append (a b : String) : (a ++ b).toList = a.toList ++ b.toList := by
  simp [String.toList]

lemma takeWhile_append_stop {p : Char → Bool} :
    ∀ (l1 : List Char), (∀ c ∈ l1, p c = true) → ∀ (d : Char), p d = false →
      ∀ (l2 : List Char), (l1 ++ d :: l2).takeWhile p = l1 := by
  intro l1
  induction l1 with
  | nil =>
    intro _ d hd l2
    simp [List.takeWhile_cons, hd]
  | cons x xs ih =>
    intro h d hd l2
    rw [List.cons_append, List.takeWhile_cons]
    simp only [h x (List.mem_cons_self _ _), if_true]
    rw [ih (fun c hc => h c (List.mem_cons_of_mem _ hc)) d hd l2]

lemma flatMap_nl_id {l : List Char} (h : '\n' ∉ l) :
    l.flatMap (fun c => if c = '\n' then ['\n', ' ', ' '] else [c]) = l := by
  induction l with
  | nil => rfl
  | cons c t ih =>
    have hc : ¬ c = '\n' := fun hcon => h (hcon ▸ List.mem_cons_self _ _)
    rw [List.flatMap_cons, if_neg hc, ih (fun hcon => h (List.mem_cons_of_mem _ hcon))]
    rfl

lemma indentSection_toList {v : String} (h : '\n' ∉ v.toList) :
    (indentSection v).toList = ' ' :: ' ' :: v.toList := by
  show ' ' :: ' ' :: v.toList.flatMap _ = _
  rw [flatMap_nl_id h]

lemma parseTop_of_head (st : ParseState) (line : String) (c0 : Char) (cs : List Char)
    (h : line.toList = c0 :: cs) (hc : c0 = '#' ∨ c0 = ' ') : parseTop st line = st := by
  simp only [parseTop, h]
  rw [if_pos hc]

lemma parseTop_hash (st : ParseState) (s : String) : parseTop st ("# " ++ s) = st :=
  parseTop_of_head st _ '#' (' ' :: s.toList) (by rw [toList_append]; rfl) (Or.inl rfl)

lemma parseTop_quoted_gen (st : ParseState) (line key : String) (vrest : List Char)
    (hk : keyOK key) (hline : line.toList = key.toList ++ ':' :: ' ' :: '"' :: vrest) :
    parseTop st line
      = { pending := none, acc := st.acc ++ [(key, ⟨unesc (stripQuoteEnd vrest)⟩)] } := by
  rcases hkl : key.toList with _ | ⟨c0, krest⟩
  · exact absurd hkl hk.1
  · rw [hkl, List.cons_append] at hline
    have htw : (c0 :: (krest ++ ':' :: ' ' :: '"' :: vrest)).takeWhile
        (fun d => d ≠ ':') = c0 :: krest := by
      rw [← List.cons_append]
      exact takeWhile_append_stop (c0 :: krest)
        (fun c hc => by simpa using hk.2.1 c (hkl ▸ hc)) ':' (by simp) _
    have hdrop : (c0 :: (krest ++ ':' :: ' ' :: '"' :: vrest)).drop
        (c0 :: krest).length = ':' :: ' ' :: '"' :: vrest := by
      rw [← List.cons_append, List.drop_left]
    have hhead : ¬ (c0 = '#' ∨ c0 = ' ') := by
      rintro (rfl | rfl)
      · exact hk.2.2.1 (by rw [hkl]; rfl)
      · exact hk.2.2.2 (by rw [hkl]; rfl)
    simp only [parseTop, hline, htw, hdrop]
    rw [if_neg hhead]
    have hkey : (⟨c0 :: krest⟩ : String) = key := by
      rw [← hkl]
      rfl
    rw [hkey]

lemma parseTop_quoted (st : ParseState) (key v : String) (hk : keyOK key) :
    parseTop st (key ++ ": \"" ++ v ++ "\"")
      = { pending := none, acc := st.acc ++ [(key, quotedVal v)] } := by
  apply parseTop_quoted_gen st _ key (v.toList ++ ['"']) hk
  have e1 : (": \"" : String).toList = [':', ' ', '"'] := rfl
  have e2 : ("\"" : String).toList = ['"'] := rfl
  rw [toList_append, toList_append, toList_append, e1, e2]
  simp

lemma parseTop_blockOpen (st : ParseState) (key : String) (hk : keyOK key) :
    parseTop st (key ++ ": |") = { pending := some (key, []), acc := st.acc } := by
  rcases hkl : key.toList with _ | ⟨c0, krest⟩
  · exact absurd hkl hk.1
  · have e1 : (": |" : String).toList = [':', ' ', '|'] := rfl
    have hline : (key ++ ": |").toList = c0 :: (krest ++ [':', ' ', '|']) := by
      rw [toList_append, hkl, e1]
      simp
    have htw : (c0 :: (krest ++ [':', ' ', '|'])).takeWhile (fun d => d ≠ ':')
        = c0 :: krest := by
      rw [← List.cons_append]
      exact takeWhile_append_stop (c0 :: krest)
        (fun c hc => by simpa using hk.2.1 c (hkl ▸ hc)) ':' (by simp) [' ', '|']
    have hdrop : (c0 :: (krest ++ [':', ' ', '|'])).drop (c0 :: krest).length
        = [':', ' ', '|'] := by
      rw [← List.cons_append, List.drop_left]
    have hhead : ¬ (c0 = '#' ∨ c0 = ' ') := by
      rintro (rfl | rfl)
      · exact hk.2.2.1 (by rw [hkl]; rfl)
      · exact hk.2.2.2 (by rw [hkl]; rfl)
    simp only [parseTop, hline, htw, hdrop]
    rw [if_neg hhead]
    have hkey : (⟨c0 :: krest⟩ : String) = key := by
      rw [← hkl]
      rfl
    rw [hkey]

lemma parseLineStep_none (acc : List (String × String)) (line : String) :
    parseLineStep ⟨none, acc⟩ line = parseTop ⟨none, acc⟩ line := rfl

/-- Reading one present section's three lines from a closed state records
its entry and returns to a closed state. -/
lemma foldl_block (acc : List (String × String)) (tail : List String) (sec v : String)
    (hsec : keyOK sec) (hv : '\n' ∉ v.toList) :
    List.foldl parseLineStep ⟨none, acc⟩ ((sec ++ ": |") :: indentSection v :: "" :: tail)
      = List.foldl parseLineStep ⟨none, acc ++ [(sec, ⟨v.toList ++ ['\n']⟩)]⟩ tail := by
  rw [List.foldl_cons, parseLineStep_none, parseTop_blockOpen _ sec hsec]
  rw [List.foldl_cons]
  have h2 : parseLineStep ⟨some (sec, []), acc⟩ (indentSection v)
      = ⟨some (sec, [v.toList]), acc⟩ := by
    have htake : (indentSection v).toList.take 2 = [' ', ' '] := by
      rw [indentSection_toList hv]
      rfl
    have hdrop : (indentSection v).toList.drop 2 = v.toList := by
      rw [indentSection_toList hv]
      rfl
    simp only [parseLineStep, htake, hdrop, if_pos]
  rw [h2, List.foldl_cons]
  have h3 : parseLineStep ⟨some (sec, [v.toList]), acc⟩ ""
      = ⟨none, acc ++ [(sec, ⟨v.toList ++ ['\n']⟩)]⟩ := by
    have hne : ("" : String).toList.take 2 ≠ [' ', ' '] := by decide
    simp only [parseLineStep, if_neg hne]
    show parseTop ⟨none, flushPending ⟨some (sec, [v.toList]), acc⟩⟩ "" = _
    have hfl : flushPending ⟨some (sec, [v.toList]), acc⟩
        = acc ++ [(sec, ⟨v.toList ++ ['\n']⟩)] := by
      show acc ++ [(sec, ⟨List.intercalate ['\n'] [v.toList].reverse ++ ['\n']⟩)] = _
      simp [List.intercalate]
    rw [hfl]
    rfl
  rw [h3]

/-- Reading the whole section region from a closed state records exactly
the written sections, in order. -/
lemma foldl_sections (sections : List (String × String))
    (hsecvals : ∀ p ∈ sections, '\n' ∉ p.2.toList) :
    ∀ (secs : List String), (∀ sec ∈ secs, keyOK sec) →
    ∀ (acc : List (String × String)) (tail : List String),
      List.foldl parseLineStep ⟨none, acc⟩ (secs.flatMap (emitSection sections) ++ tail)
        = List.foldl parseLineStep
            ⟨none, acc ++ secs.filterMap
              (fun sec => (writtenVal sections sec).map (fun w => (sec, w)))⟩ tail := by
  intro secs
  induction secs with
  | nil =>
    intro _ acc tail
    simp
  | cons sec rest ih =>
    intro hok acc tail
    rw [List.flatMap_cons, List.append_assoc]
    rcases hget : mapGet sections sec with _ | v
    · have hemit : emitSection sections sec = [] := by
        simp only [emitSection, hget]
      have hwv : (writtenVal sections sec).map (fun w => (sec, w)) = none := by
        simp only [writtenVal, hget, Option.map_none']
      have hfm : List.filterMap (fun s => Option.map (fun w => (s, w)) (writtenVal sections s))
          (sec :: rest)
          = List.filterMap (fun s => Option.map (fun w => (s, w)) (writtenVal sections s))
            rest := by
        simp only [List.filterMap_cons, hwv]
      rw [hemit, List.nil_append, hfm]
      exact ih (fun s hs => hok s (List.mem_cons_of_mem _ hs)) acc tail
    · by_cases hv : v = ""
      · have hemit : emitSection sections sec = [] := by
          simp only [emitSection, hget, hv]
          rw [if_neg (fun hcon => hcon rfl)]
        have hwv : (writtenVal sections sec).map (fun w => (sec, w)) = none := by
          simp only [writtenVal, hget, hv]
          rw [if_neg (fun hcon => hcon rfl)]
          rfl
        have hfm : List.filterMap (fun s => Option.map (fun w => (s, w)) (writtenVal sections s))
            (sec :: rest)
            = List.filterMap (fun s => Option.map (fun w => (s, w)) (writtenVal sections s))
              rest := by
          simp only [List.filterMap_cons, hwv]
        rw [hemit, List.nil_append, hfm]
        exact ih (fun s hs => hok s (List.mem_cons_of_mem _ hs)) acc tail
      · have hemit : emitSection sections sec = [sec ++ ": |", indentSection v, ""] := by
          simp only [emitSection, hget, if_pos hv]
        have hwv : (writtenVal sections sec).map (fun w => (sec, w))
            = some (sec, ⟨v.toList ++ ['\n']⟩) := by
          simp only [writtenVal, hget, if_pos hv, Option.map_some']
        have hvnl : '\n' ∉ v.toList := hsecvals (sec, v) (mapGet_mem hget)
        have hfm : List.filterMap (fun s => Option.map (fun w => (s, w)) (writtenVal sections s))
            (sec :: rest)
            = (sec, (⟨v.toList ++ ['\n']⟩ : String)) ::
              List.filterMap (fun s => Option.map (fun w => (s, w)) (writtenVal sections s))
                rest := by
          simp only [List.filterMap_cons, hwv]
        rw [hemit, hfm]
        calc List.foldl parseLineStep ⟨none, acc⟩
              ((sec ++ ": |") :: indentSection v :: "" ::
                (rest.flatMap (emitSection sections) ++ tail))
            = List.foldl parseLineStep ⟨none, acc ++ [(sec, ⟨v.toList ++ ['\n']⟩)]⟩
                (rest.flatMap (emitSection sections) ++ tail) :=
              foldl_block acc _ sec v (hok sec (List.mem_cons_self _ _)) hvnl
          _ = List.foldl parseLineStep
                ⟨none, (acc ++ [(sec, ⟨v.toList ++ ['\n']⟩)]) ++ rest.filterMap
                  (fun s => (writtenVal sections s).map (fun w => (s, w)))⟩ tail :=
              ih (fun s hs => hok s (List.mem_cons_of_mem _ hs)) _ tail
          _ = List.foldl parseLineStep
                ⟨none, acc ++ ((sec, ⟨v.toList ++ ['\n']⟩) :: rest.filterMap
                  (fun s => (writtenVal sections s).map (fun w => (s, w))))⟩ tail := by
              rw [List.append_assoc]
              rfl

/-- The fixed-field entries the reader recovers before the content
sections. -/
def headerEntries (data : PageData) (slug : String) : List (String × String) :=
  [("id", quotedVal slug), ("slug", quotedVal slug), ("category", quotedVal data.category),
   ("title", quotedVal (escQuotes data.title))]
  ++ (if data.scientificName ≠ "" then
        [("scientific_name", quotedVal (escQuotes data.scientificName))] else [])
  ++ [("image", quotedVal ("images/" ++ slug ++ ".jpg"))]

lemma parseTop_skipHead (st : ParseState) (line : String)
    (hc : line.toList.head? = some '#' ∨ line.toList.head? = some ' ') :
    parseTop st line = st := by
  rcases hl : line.toList with _ | ⟨c0, cs⟩
  · simp only [parseTop, hl]
  · apply parseTop_of_head st line c0 cs hl
    rw [hl] at hc
    simp only [List.head?_cons, Option.some.injEq] at hc
    exact hc

lemma parseLineStep_quoted (acc : List (String × String)) (key v : String) (hk : keyOK key) :
    parseLineStep ⟨none, acc⟩ (key ++ ": \"" ++ v ++ "\"")
      = ⟨none, acc ++ [(key, quotedVal v)]⟩ := by
  rw [parseLineStep_none]
  exact parseTop_quoted ⟨none, acc⟩ key v hk

lemma parseLineStep_blank (acc : List (String × String)) :
    parseLineStep ⟨none, acc⟩ "" = ⟨none, acc⟩ := rfl

lemma parseLineStep_skipHead (acc : List (String × String)) (line : String)
    (hc : line.toList.head? = some '#' ∨ line.toList.head? = some ' ') :
    parseLineStep ⟨none, acc⟩ line = ⟨none, acc⟩ := by
  rw [parseLineStep_none, parseTop_skipHead _ _ hc]

lemma parseLineStep_image (acc : List (String × String)) (slug : String) :
    parseLineStep ⟨none, acc⟩ ("image: \"images/" ++ slug ++ ".jpg\"")
      = ⟨none, acc ++ [("image", quotedVal ("images/" ++ slug ++ ".jpg"))]⟩ := by
  rw [parseLineStep_none]
  apply parseTop_quoted_gen ⟨none, acc⟩ _ "image" (("images/" ++ slug ++ ".jpg").toList ++ ['"'])
    (by decide)
  have l1 : ("image: \"images/" : String).toList
      = ['i', 'm', 'a', 'g', 'e', ':', ' ', '"', 'i', 'm', 'a', 'g', 'e', 's', '/'] := rfl
  have l2 : (".jpg\"" : String).toList = ['.', 'j', 'p', 'g', '"'] := rfl
  have l3 : ("image" : String).toList = ['i', 'm', 'a', 'g', 'e'] := rfl
  have l4 : ("images/" : String).toList = ['i', 'm', 'a', 'g', 'e', 's', '/'] := rfl
  have l5 : (".jpg" : String).toList = ['.', 'j', 'p', 'g'] := rfl
  simp only [toList_append, l1, l2, l3, l4, l5]
  simp

lemma parseLineStep_mdata (acc : List (String × String)) :
    parseLineStep ⟨none, acc⟩ "metadata:" = ⟨none, acc⟩ := rfl

/-- Reading the trailing part of the document (image line, blank, section
region, metadata block) from a closed state. -/
lemma parse_tail (data : PageData) (language slug ts : String)
    (hsecvals : ∀ p ∈ data.sections, '\n' ∉ p.2.toList) (acc : List (String × String)) :
    flushPending (List.foldl parseLineStep ⟨none, acc⟩
      (("image: \"images/" ++ slug ++ ".jpg\"") :: "" ::
        (sectionOrderV6.flatMap (emitSection data.sections)
          ++ ["metadata:", "  source: \"vitaherbapedia.com\"",
              "  source_url: \"" ++ data.url ++ "\"",
              "  scraped_at: \"" ++ ts ++ "\"",
              "  language: \"" ++ language ++ "\""])))
      = (acc ++ [("image", quotedVal ("images/" ++ slug ++ ".jpg"))])
        ++ sectionOrderV6.filterMap
            (fun sec => (writtenVal data.sections sec).map (fun w => (sec, w))) := by
  rw [List.foldl_cons, parseLineStep_image acc slug, List.foldl_cons, parseLineStep_blank,
    foldl_sections data.sections hsecvals sectionOrderV6 (by decide)]
  rw [List.foldl_cons, parseLineStep_mdata, List.foldl_cons,
    parseLineStep_skipHead _ "  source: \"vitaherbapedia.com\"" (Or.inr rfl),
    List.foldl_cons,
    parseLineStep_skipHead _ ("  source_url: \"" ++ data.url ++ "\"")
      (Or.inr (by rw [toList_append, toList_append]; rfl)),
    List.foldl_cons,
    parseLineStep_skipHead _ ("  scraped_at: \"" ++ ts ++ "\"")
      (Or.inr (by rw [toList_append, toList_append]; rfl)),
    List.foldl_cons,
    parseLineStep_skipHead _ ("  language: \"" ++ language ++ "\"")
      (Or.inr (by rw [toList_append, toList_append]; rfl)),
    List.foldl_nil]
  rfl

/-- Reading the whole generated document recovers the header entries
followed by the written sections. -/
lemma parse_generated (data : PageData) (language slug ts : String)
    (hsecvals : ∀ p ∈ data.sections, '\n' ∉ p.2.toList) :
    flushPending ((generateYamlLines data language slug ts).foldl parseLineStep ⟨none, []⟩)
      = headerEntries data slug ++ sectionOrderV6.filterMap
          (fun s => (writtenVal data.sections s).map (fun w => (s, w))) := by
  unfold generateYamlLines
  simp only [List.cons_append, List.nil_append, List.append_assoc]
  rw [List.foldl_cons, parseLineStep_skipHead _ ("# " ++ data.title)
    (Or.inl (by rw [toList_append]; rfl))]
  rw [List.foldl_cons, parseLineStep_skipHead _ ("# Source: " ++ data.url)
    (Or.inl (by rw [toList_append]; rfl))]
  rw [List.foldl_cons, parseLineStep_skipHead _ ("# Language: " ++ language)
    (Or.inl (by rw [toList_append]; rfl))]
  rw [List.foldl_cons, parseLineStep_blank]
  rw [List.foldl_cons,
    show parseLineStep ⟨none, []⟩ ("id: \"" ++ slug ++ "\"")
      = ⟨none, [("id", quotedVal slug)]⟩ from
      parseLineStep_quoted [] "id" slug (by decide)]
  rw [List.foldl_cons,
    show parseLineStep ⟨none, [("id", quotedVal slug)]⟩ ("slug: \"" ++ slug ++ "\"")
      = ⟨none, [("id", quotedVal slug), ("slug", quotedVal slug)]⟩ from
      parseLineStep_quoted _ "slug" slug (by decide)]
  rw [List.foldl_cons,
    show parseLineStep ⟨none, [("id", quotedVal slug), ("slug", quotedVal slug)]⟩
        ("category: \"" ++ data.category ++ "\"")
      = ⟨none, [("id", quotedVal slug), ("slug", quotedVal slug),
          ("category", quotedVal data.category)]⟩ from
      parseLineStep_quoted _ "category" data.category (by decide)]
  rw [List.foldl_cons,
    show parseLineStep ⟨none, [("id", quotedVal slug), ("slug", quotedVal slug),
          ("category", quotedVal data.category)]⟩
        ("title: \"" ++ escQuotes data.title ++ "\"")
      = ⟨none, [("id", quotedVal slug), ("slug", quotedVal slug),
          ("category", quotedVal data.category),
          ("title", quotedVal (escQuotes data.title))]⟩ from
      parseLineStep_quoted _ "title" (escQuotes data.title) (by decide)]
  by_cases hsci : data.scientificName ≠ ""
  · rw [if_pos hsci, List.singleton_append]
    rw [List.foldl_cons,
      show parseLineStep ⟨none, [("id", quotedVal slug), ("slug", quotedVal slug),
            ("category", quotedVal data.category),
            ("title", quotedVal (escQuotes data.title))]⟩
          ("scientific_name: \"" ++ escQuotes data.scientificName ++ "\"")
        = ⟨none, [("id", quotedVal slug), ("slug", quotedVal slug),
            ("category", quotedVal data.category),
            ("title", quotedVal (escQuotes data.title)),
            ("scientific_name", quotedVal (escQuotes data.scientificName))]⟩ from
        parseLineStep_quoted _ "scientific_name" (escQuotes data.scientificName) (by decide)]
    rw [parse_tail data language slug ts hsecvals]
    simp [headerEntries, hsci]
  · rw [if_neg hsci, List.nil_append]
    rw [parse_tail data language slug ts hsecvals]
    push_neg at hsci
    simp [headerEntries, hsci]

lemma map_mk_toList (lines : List String) :
    (lines.map String.toList).map (fun l => (⟨l⟩ : String)) = lines := by
  induction lines with
  | nil => rfl
  | cons s t ih =>
    rw [List.map_cons, List.map_cons, ih]
    rfl

lemma noNL_append {a b : String} (ha : '\n' ∉ a.toList) (hb : '\n' ∉ b.toList) :
    '\n' ∉ (a ++ b).toList := by
  rw [toList_append]
  intro hcon
  exact (List.mem_append.mp hcon).elim ha hb

lemma noNL_escQuotes {s : String} (h : '\n' ∉ s.toList) : '\n' ∉ (escQuotes s).toList := by
  intro hcon
  rw [show (escQuotes s).toList = s.toList.flatMap
      (fun c => if c = '"' then ['\\', '"'] else [c]) from rfl] at hcon
  rcases List.mem_flatMap.mp hcon with ⟨c, hc, hmem⟩
  by_cases hq : c = '"'
  · rw [if_pos hq] at hmem
    exact absurd hmem (by decide)
  · rw [if_neg hq, List.mem_singleton] at hmem
    exact h (hmem ▸ hc)

/-- No line the writer emits contains a newline, so the reader's
line-splitting inverts the writer's line-joining. -/
lemma generated_lines_noNL (data : PageData) (language slug ts : String)
    (hT : '\n' ∉ data.title.toList) (hU : '\n' ∉ data.url.toList)
    (hC : '\n' ∉ data.category.toList) (hS : '\n' ∉ data.scientificName.toList)
    (hslug : '\n' ∉ slug.toList) (hlang : '\n' ∉ language.toList) (hts : '\n' ∉ ts.toList)
    (hsecv : ∀ p ∈ data.sections, '\n' ∉ p.2.toList) :
    ∀ l ∈ (generateYamlLines data language slug ts).map String.toList, '\n' ∉ l := by
  have hsecnames : ∀ g ∈ sectionOrderV6, '\n' ∉ g.toList := by decide
  intro l hl
  rcases List.mem_map.mp hl with ⟨s, hs, rfl⟩
  simp only [generateYamlLines] at hs
  have hsections : ∀ sec ∈ sectionOrderV6, s ∈ emitSection data.sections sec
      → '\n' ∉ s.toList := by
    intro sec hsecmem hsem
    rcases hget : mapGet data.sections sec with _ | v
    · simp only [emitSection, hget] at hsem
      exact absurd hsem (List.not_mem_nil s)
    · by_cases hv : v = ""
      · simp only [emitSection, hget, hv] at hsem
        rw [if_neg (fun hcon => hcon rfl)] at hsem
        exact absurd hsem (List.not_mem_nil s)
      · simp only [emitSection, hget, if_pos hv] at hsem
        have hvnl : '\n' ∉ v.toList := hsecv (sec, v) (mapGet_mem hget)
        simp only [List.mem_cons, List.not_mem_nil, or_false] at hsem
        rcases hsem with rfl | rfl | rfl
        · exact noNL_append (hsecnames sec hsecmem) (by decide)
        · intro hcon
          rw [indentSection_toList hvnl] at hcon
          simp only [List.mem_cons] at hcon
          rcases hcon with h | h | h
          · exact absurd h (by decide)
          · exact absurd h (by decide)
          · exact hvnl h
        · exact (by decide : '\n' ∉ ("" : String).toList)
  by_cases hsci : data.scientificName ≠ ""
  · rw [if_pos hsci] at hs
    simp only [List.mem_append, List.mem_cons, List.mem_singleton, List.not_mem_nil, or_false,
      List.mem_flatMap] at hs
    rcases hs with ((((rfl | rfl | rfl | rfl | rfl | rfl | rfl | rfl) | rfl) | rfl | rfl)
        | ⟨sec, hsecmem, hsem⟩) | rfl | rfl | rfl | rfl | rfl
    · exact noNL_append (by decide) hT
    · exact noNL_append (by decide) hU
    · exact noNL_append (by decide) hlang
    · exact (by decide : '\n' ∉ ("" : String).toList)
    · exact noNL_append (noNL_append (by decide) hslug) (by decide)
    · exact noNL_append (noNL_append (by decide) hslug) (by decide)
    · exact noNL_append (noNL_append (by decide) hC) (by decide)
    · exact noNL_append (noNL_append (by decide) (noNL_escQuotes hT)) (by decide)
    · exact noNL_append (noNL_append (by decide) (noNL_escQuotes hS)) (by decide)
    · exact noNL_append (noNL_append (by decide) hslug) (by decide)
    · exact (by decide : '\n' ∉ ("" : String).toList)
    · exact hsections sec hsecmem hsem
    · exact (by decide : '\n' ∉ ("metadata:" : String).toList)
    · exact (by decide : '\n' ∉ ("  source: \"vitaherbapedia.com\"" : String).toList)
    · exact noNL_append (noNL_append (by decide) hU) (by decide)
    · exact noNL_append (noNL_append (by decide) hts) (by decide)
    · exact noNL_append (noNL_append (by decide) hlang) (by decide)
  · rw [if_neg hsci] at hs
    simp only [List.mem_append, List.mem_cons, List.mem_singleton, List.not_mem_nil, or_false,
      List.mem_flatMap] at hs
    rcases hs with ((((rfl | rfl | rfl | rfl | rfl | rfl | rfl | rfl)) | rfl | rfl)
        | ⟨sec, hsecmem, hsem⟩) | rfl | rfl | rfl | rfl | rfl
    · exact noNL_append (by decide) hT
    · exact noNL_append (by decide) hU
    · exact noNL_append (by decide) hlang
    · exact (by decide : '\n' ∉ ("" : String).toList)
    · exact noNL_append (noNL_append (by decide) hslug) (by decide)
    · exact noNL_append (noNL_append (by decide) hslug) (by decide)
    · exact noNL_append (noNL_append (by decide) hC) (by decide)
    · exact noNL_append (noNL_append (by decide) (noNL_escQuotes hT)) (by decide)
    · exact noNL_append (noNL_append (by decide) hslug) (by decide)
    · exact (by decide : '\n' ∉ ("" : String).toList)
    · exact hsections sec hsecmem hsem
    · exact (by decide : '\n' ∉ ("metadata:" : String).toList)
    · exact (by decide : '\n' ∉ ("  source: \"vitaherbapedia.com\"" : String).toList)
    · exact noNL_append (noNL_append (by decide) hU) (by decide)
    · exact noNL_append (noNL_append (by decide) hts) (by decide)
    · exact noNL_append (noNL_append (by decide) hlang) (by decide)

/-- Reading back the document string itself: splitting on newlines
recovers the pushed lines, and the line reader recovers the entries. -/
lemma parseYamlModel_generateYaml (data : PageData) (language slug ts : String)
    (hT : '\n' ∉ data.title.toList) (hU : '\n' ∉ data.url.toList)
    (hC : '\n' ∉ data.category.toList) (hS : '\n' ∉ data.scientificName.toList)
    (hslug : '\n' ∉ slug.toList) (hlang : '\n' ∉ language.toList) (hts : '\n' ∉ ts.toList)
    (hsecv : ∀ p ∈ data.sections, '\n' ∉ p.2.toList) :
    parseYamlModel (generateYaml data language slug ts)
      = headerEntries data slug ++ sectionOrderV6.filterMap
          (fun s => (writtenVal data.sections s).map (fun w => (s, w))) := by
  have hne : (generateYamlLines data language slug ts).map String.toList ≠ [] := by
    unfold generateYamlLines
    simp only [List.cons_append, List.map_cons]
    exact List.cons_ne_nil _ _
  unfold parseYamlModel generateYaml joinLines
  rw [show (⟨List.intercalate ['\n']
      ((generateYamlLines data language slug ts).map String.toList)⟩ : String).toList
    = List.intercalate ['\n'] ((generateYamlLines data language slug ts).map String.toList)
    from rfl]
  rw [List.splitOn_intercalate _ '\n'
    (generated_lines_noNL data language slug ts hT hU hC hS hslug hlang hts hsecv) hne]
  rw [map_mk_toList]
  exact parse_generated data language slug ts hsecv

lemma jsTrimChars_append_nl (l : List Char) : jsTrimChars (l ++ ['\n']) = jsTrimChars l := by
  unfold jsTrimChars
  rw [List.dropWhile_append]
  by_cases h : (l.dropWhile isJsWs).isEmpty
  · rw [if_pos h, List.isEmpty_iff.mp h]
    rfl
  · rw [if_neg h, List.reverse_append,
      show ((['\n'] : List Char).reverse) = ['\n'] from rfl,
      List.singleton_append, List.dropWhile_cons]
    rw [if_pos (by decide : isJsWs '\n' = true)]

lemma jsTrim_append_nl (v : String) : jsTrim ⟨v.toList ++ ['\n']⟩ = jsTrim v := by
  unfold jsTrim
  rw [show (⟨v.toList ++ ['\n']⟩ : String).toList = v.toList ++ ['\n'] from rfl,
    jsTrimChars_append_nl]

/-- Every entry of the read-back section region is keyed by one of the
emitted section names. -/
lemma filterMap_key_mem {sections : List (String × String)} {secs : List String}
    {p : String × String}
    (hp : p ∈ secs.filterMap (fun s => (writtenVal sections s).map (fun w => (s, w)))) :
    p.1 ∈ secs := by
  rcases List.mem_filterMap.mp hp with ⟨s, hs, hmap⟩
  rcases Option.map_eq_some'.mp hmap with ⟨w, _, hw⟩
  rw [← hw]
  exact hs

/-- Looking a section name up in the read-back section region returns
exactly the written value. -/
lemma mapGet_sections_filterMap (sections : List (String × String)) :
    ∀ (secs : List String), secs.Nodup → ∀ f ∈ secs,
      mapGet (secs.filterMap (fun s => (writtenVal sections s).map (fun w => (s, w)))) f
        = writtenVal sections f := by
  intro secs
  induction secs with
  | nil =>
    intro _ f hf
    exact absurd hf (List.not_mem_nil f)
  | cons s rest ih =>
    intro hnd f hf
    rcases hw : writtenVal sections s with _ | w
    · have hfm : (s :: rest).filterMap
          (fun t => (writtenVal sections t).map (fun w => (t, w)))
          = rest.filterMap (fun t => (writtenVal sections t).map (fun w => (t, w))) := by
        simp only [List.filterMap_cons, hw, Option.map_none']
      rw [hfm]
      rcases List.mem_cons.mp hf with rfl | hf2
      · rw [hw]
        unfold mapGet
        rw [List.find?_eq_none.mpr, Option.map_none']
        intro p hp
        simp only [decide_eq_true_eq]
        intro hps
        exact (List.nodup_cons.mp hnd).1 (hps ▸ filterMap_key_mem hp)
      · exact ih (List.nodup_cons.mp hnd).2 f hf2
    · have hfm : (s :: rest).filterMap
          (fun t => (writtenVal sections t).map (fun w => (t, w)))
          = (s, w) :: rest.filterMap (fun t => (writtenVal sections t).map (fun w => (t, w))) := by
        simp only [List.filterMap_cons, hw, Option.map_some']
      rw [hfm]
      rcases List.mem_cons.mp hf with rfl | hf2
      · unfold mapGet
        rw [List.find?_cons_of_pos _ (by simp)]
        rw [hw]
        rfl
      · have hfs : f ≠ s := fun hcon => (List.nodup_cons.mp hnd).1 (hcon ▸ hf2)
        unfold mapGet
        rw [List.find?_cons_of_neg _ (by simp [hfs.symm])]
        exact ih (List.nodup_cons.mp hnd).2 f hf2

/-- Header entries never shadow a canonical content field. -/
lemma mapGet_headerEntries_skip (data : PageData) (slug : String)
    (rest : List (String × String)) (f : String) (hf : f ∈ CONTENT_FIELDS) :
    mapGet (headerEntries data slug ++ rest) f = mapGet rest f := by
  have hnone : (headerEntries data slug).find? (fun p => p.1 = f) = none := by
    rw [List.find?_eq_none]
    intro p hp
    have hkeys : p.1 = "id" ∨ p.1 = "slug" ∨ p.1 = "category" ∨ p.1 = "title"
        ∨ p.1 = "scientific_name" ∨ p.1 = "image" := by
      simp only [headerEntries] at hp
      by_cases hsci : data.scientificName ≠ ""
      · rw [if_pos hsci] at hp
        simp only [List.mem_append, List.mem_cons, List.mem_singleton, List.not_mem_nil,
          or_false] at hp
        rcases hp with ((rfl | rfl | rfl | rfl) | rfl) | rfl <;> simp
      · rw [if_neg hsci] at hp
        simp only [List.append_nil, List.mem_append, List.mem_cons, List.mem_singleton,
          List.not_mem_nil, or_false] at hp
        rcases hp with (rfl | rfl | rfl | rfl) | rfl <;> simp
    simp only [decide_eq_true_eq]
    intro hcon
    have hall : ∀ g ∈ CONTENT_FIELDS, g ≠ "id" ∧ g ≠ "slug" ∧ g ≠ "category" ∧ g ≠ "title"
        ∧ g ≠ "scientific_name" ∧ g ≠ "image" := by decide
    rcases hall f hf with ⟨h1, h2, h3, h4, h5, h6⟩
    rcases hkeys with hk | hk | hk | hk | hk | hk
    · exact h1 (hcon ▸ hk)
    · exact h2 (hcon ▸ hk)
    · exact h3 (hcon ▸ hk)
    · exact h4 (hcon ▸ hk)
    · exact h5 (hcon ▸ hk)
    · exact h6 (hcon ▸ hk)
  unfold mapGet
  rw [List.find?_append, hnone, Option.none_or]

/-- Looking a canonical content field up in the whole read-back document
returns exactly the written value. -/
lemma mapGet_roundtrip (data : PageData) (language slug ts : String)
    (hT : '\n' ∉ data.title.toList) (hU : '\n' ∉ data.url.toList)
    (hC : '\n' ∉ data.category.toList) (hS : '\n' ∉ data.scientificName.toList)
    (hslug : '\n' ∉ slug.toList) (hlang : '\n' ∉ language.toList) (hts : '\n' ∉ ts.toList)
    (hsecv : ∀ p ∈ data.sections, '\n' ∉ p.2.toList) :
    ∀ f ∈ CONTENT_FIELDS,
      mapGet (parseYamlModel (generateYaml data language slug ts)) f
        = writtenVal data.sections f := by
  intro f hf
  rw [parseYamlModel_generateYaml data language slug ts hT hU hC hS hslug hlang hts hsecv,
    mapGet_headerEntries_skip data slug _ f hf,
    mapGet_sections_filterMap data.sections sectionOrderV6 (by decide) f
      ((by decide : ∀ g ∈ CONTENT_FIELDS, g ∈ sectionOrderV6) f hf)]

/-- C7: serializing a scraped record with `generateYaml` and re-parsing
the produced document yields the same present-field set (in the
verifier's sense), and for each present canonical content field the
re-parsed value equals the original value up to whitespace trimming. -/
theorem c7_write_parse_roundtrip (data : PageData) (language slug ts : String)
    (hT : '\n' ∉ data.title.toList) (hU : '\n' ∉ data.url.toList)
    (hC : '\n' ∉ data.category.toList) (hS : '\n' ∉ data.scientificName.toList)
    (hslug : '\n' ∉ slug.toList) (hlang : '\n' ∉ language.toList) (hts : '\n' ∉ ts.toList)
    (hsecv : ∀ p ∈ data.sections, '\n' ∉ p.2.toList) :
    getPresentContentFields (parseYamlModel (generateYaml data language slug ts))
        = getPresentContentFields data.sections
      ∧ ∀ f ∈ getPresentContentFields data.sections,
          ∃ v w, mapGet data.sections f = some v
            ∧ mapGet (parseYamlModel (generateYaml data language slug ts)) f = some w
            ∧ jsTrim w = jsTrim v := by
  have hfield := mapGet_roundtrip data language slug ts hT hU hC hS hslug hlang hts hsecv
  constructor
  · unfold getPresentContentFields
    refine List.filter_congr (fun f hf => ?_)
    rw [hfield f hf]
    rcases hg : mapGet data.sections f with _ | v
    · have hwn : writtenVal data.sections f = none := by
        simp only [writtenVal, hg]
      rw [hwn]
    · by_cases hv : v = ""
      · have hwn : writtenVal data.sections f = none := by
          simp only [writtenVal, hg, hv]
          rw [if_neg (fun hcon => hcon rfl)]
        rw [hwn]
        subst hv
        decide
      · have hws : writtenVal data.sections f = some ⟨v.toList ++ ['\n']⟩ := by
          simp only [writtenVal, hg, if_pos hv]
        rw [hws]
        show decide (jsTrim ⟨v.toList ++ ['\n']⟩ ≠ "") = decide (jsTrim v ≠ "")
        rw [jsTrim_append_nl]
  · intro f hf
    have hfc : f ∈ CONTENT_FIELDS := List.mem_of_mem_filter hf
    have hpred := List.of_mem_filter hf
    rcases hg : mapGet data.sections f with _ | v
    · simp only [hg] at hpred
      exact absurd hpred (by decide)
    · have hv : v ≠ "" := by
        intro hcon
        rw [hcon] at hg
        simp only [hg] at hpred
        exact absurd hpred (by decide)
      refine ⟨v, ⟨v.toList ++ ['\n']⟩, rfl, ?_, jsTrim_append_nl v⟩
      rw [hfield f hfc]
      simp only [writtenVal, hg, if_pos hv]

/-- Concrete record exercising C7. -/
def c7data : PageData :=
  { url := "https://vitaherbapedia.com/shop/ginseng", title := "Ginseng",
    scientificName := "Panax ginseng", category := "adaptogens",
    sections := [("history", "Used for centuries in East Asia."),
                 ("functions", "Supports vitality."), ("dosage", "")] }

/-- Witness for C7 at a concrete record. -/
theorem c7_witness :
    ('\n' ∉ c7data.title.toList) ∧ (∀ p ∈ c7data.sections, '\n' ∉ p.2.toList)
      ∧ (getPresentContentFields
            (parseYamlModel (generateYaml c7data "en" "ginseng" "2024-01-01T00:00:00Z"))
          = getPresentContentFields c7data.sections
        ∧ ∀ f ∈ getPresentContentFields c7data.sections,
            ∃ v w, mapGet c7data.sections f = some v
              ∧ mapGet (parseYamlModel (generateYaml c7data "en" "ginseng"
                  "2024-01-01T00:00:00Z")) f = some w
              ∧ jsTrim w = jsTrim v) :=
  ⟨by decide, by decide,
    c7_write_parse_roundtrip c7data "en" "ginseng" "2024-01-01T00:00:00Z"
      (by decide) (by decide) (by decide) (by decide) (by decide) (by decide) (by decide)
      (by decide)⟩

end Herbapedia
